import Mathlib

/-!
The reshape operator of MIGraphX: shape resolution and materialization.

A shallow embedding of `src/include/migraphx/op/reshape.hpp` (the
`migraphx::op::reshape` struct) together with theorems about it.

Conventions of the embedding.

* `std::size_t` values are natural numbers; every multiplication the source
  performs on them is followed by `% size_mod` (`2^64`).
* The `shape` class lies outside the translated sources. Its members are
  modelled from the specification, which gives the canonical strides as
  products of sizes; the element count is the `std::size_t` the translated
  source divides and compares, the product of the sizes modulo `2^64`. The
  `argument` class and `visit_all` lie outside them as well and are modelled
  from the specification.
* `int64_t` values are integers; a conversion to `std::size_t` is `to_size_t`.
* `MIGRAPHX_THROW` becomes `Except.error` with one constructor per throw site.
* A read outside a vector and a division by zero have no defined result in
  the source; they are the outcomes `out_of_range` and `div_by_zero`.
* `assert` is compiled out of release builds and is not part of the functions.
-/

namespace migraphx

/-! ## Machine integers -/

/-- The number of values of a `std::size_t`. -/
def size_mod : Nat := 2 ^ 64

/-- Conversion of an `int64_t` to `std::size_t` (value modulo `2^64`). -/
def to_size_t (d : Int) : Nat := (d % (2 ^ 64 : Int)).toNat

/-- Conversion of a `std::size_t` to `int64_t` (two's complement). -/
def to_int64 (n : Nat) : Int :=
  if n % 2 ^ 64 < 2 ^ 63 then ((n % 2 ^ 64 : Nat) : Int) else ((n % 2 ^ 64 : Nat) : Int) - 2 ^ 64

/-- Conversion of an `int64_t` to `int`: the low 32 bits, two's complement. -/
def to_int32 (d : Int) : Int :=
  if d % 2 ^ 32 < 2 ^ 31 then d % 2 ^ 32 else d % 2 ^ 32 - 2 ^ 32

/-! ## Shapes -/

/-- Modelled from the spec: the element type of a shape (`shape::type_t`, declared
outside the translated sources). The spec calls it an enumerated scalar kind,
opaque to the reshape operator. -/
inductive type_t where
  | bool_type
  | half_type
  | float_type
  | double_type
  | uint8_type
  | int8_type
  | uint16_type
  | int16_type
  | int32_type
  | int64_type
  | uint32_type
  | uint64_type
  deriving DecidableEq, Repr

/-- Modelled from the spec: `shape::dynamic_dimension` (declared outside the
translated sources), an axis size given as a range `[min, max]`. -/
structure dynamic_dimension where
  min : Nat
  max : Nat
  deriving DecidableEq, Repr

/-- Modelled from the spec: `is_fixed() ⇔ min == max`. -/
def dynamic_dimension.is_fixed (dd : dynamic_dimension) : Bool := dd.min == dd.max

/-- Modelled from the spec: the `shape` class (declared outside the translated
sources). A static shape has an element type, per-axis sizes and per-axis
strides; a dynamic shape has an element type and per-axis ranges and carries
no strides. -/
inductive shape where
  | fixed (type : type_t) (lens : List Nat) (strides : List Nat)
  | dyn (type : type_t) (dyn_dims : List dynamic_dimension)
  deriving DecidableEq, Repr

/-- Modelled from the spec: the strides of the canonical row-major layout of
`lens` (what the constructor `shape{type, lens}` computes, outside the
translated sources): the rightmost stride is `1` and every other stride is
the product of the sizes to its right. -/
def calculate_strides : List Nat → List Nat
  | [] => []
  | _ :: ds => ds.prod :: calculate_strides ds

/-- The accessor `shape::type()`. -/
def shape.type : shape → type_t
  | .fixed t _ _ => t
  | .dyn t _ => t

/-- The accessor `shape::dynamic()`. -/
def shape.dynamic : shape → Bool
  | .fixed _ _ _ => false
  | .dyn _ _ => true

/-- The accessor `shape::lens()`; a dynamic shape has no sizes. -/
def shape.lens : shape → List Nat
  | .fixed _ l _ => l
  | .dyn _ _ => []

/-- The accessor `shape::strides()`; a dynamic shape has no strides. -/
def shape.strides : shape → List Nat
  | .fixed _ _ s => s
  | .dyn _ _ => []

/-- Modelled from the spec: the accessor `shape::dyn_dims()` (outside the
translated sources); every axis of a static shape is a fixed size. -/
def shape.dyn_dims : shape → List dynamic_dimension
  | .fixed _ l _ => l.map (fun d => ⟨d, d⟩)
  | .dyn _ dds => dds

/-- Modelled from the spec: `shape::elements()` (outside the translated
sources), the product of the sizes. The translated source uses the result as a
`std::size_t` (it divides it at lines 196-198 and compares it at line 208), so
the count is the product modulo `2^64`. -/
def shape.elements (s : shape) : Nat := s.lens.prod % size_mod

/-- Modelled from the spec: `shape::standard()` (outside the translated
sources): the strides equal those of the canonical row-major layout of
the sizes. -/
def shape.standard : shape → Bool
  | .fixed _ l s => s == calculate_strides l
  | .dyn _ _ => false

/-- The constructor `shape{type, lens}`: a standard shape. -/
def shape.from_lens (t : type_t) (lens : List Nat) : shape :=
  .fixed t lens (calculate_strides lens)

/-! ## Outcomes -/

/-- The ways a shape computation ends without a shape: one constructor per
`MIGRAPHX_THROW` of the source, and the two operations without a defined
result. -/
inductive reshape_error where
  /-- `check_shapes{...}.has(1)` rejects the inputs. -/
  | check_shapes
  /-- "reshape: Dimensions for reshape can only have one -1 dim". -/
  | more_than_one_neg_dim
  /-- "Reshape: Only supports one non-fixed dynamic_dimension". -/
  | not_one_non_fixed
  /-- "Reshape: Non-fixed dynamic_dimension doesn't match with 0 or -1 output dimension". -/
  | non_fixed_mismatch
  /-- "Reshape: Number of fixed elements must match. Input: .. Output: ..". -/
  | fixed_elements_mismatch (input : Nat) (output : Nat)
  /-- "reshape: Wrong number of elements for reshape: reshape has .. elements
  whereas the input has ..". -/
  | wrong_number_of_elements (reshape_has : Nat) (input_has : Nat)
  /-- A read outside the bounds of a vector. -/
  | out_of_range
  /-- An integer division by zero. -/
  | div_by_zero
  /-- `visit_all` rejects arguments of different element types. -/
  | type_mismatch
  deriving DecidableEq, Repr

instance {ε α : Type} [DecidableEq ε] [DecidableEq α] : DecidableEq (Except ε α)
  | .ok a, .ok b =>
    if h : a = b then isTrue (by rw [h]) else isFalse (fun h1 => h (Except.ok.inj h1))
  | .error a, .error b =>
    if h : a = b then isTrue (by rw [h]) else isFalse (fun h1 => h (Except.error.inj h1))
  | .ok _, .error _ => isFalse (fun h => Except.noConfusion h)
  | .error _, .ok _ => isFalse (fun h => Except.noConfusion h)

/-- The operator: its only attribute is `dims`. -/
structure reshape where
  dims : List Int
  deriving DecidableEq, Repr

/-! ## The dynamic resolver -/

/-- The loop of `dyn_compute_shape` over `i < dyn_dims.size()`, reading `dims[i]`
and `dyn_dims[i]`; `a` is `num_dims_ele`, `b` is `num_dd_ele`. -/
def fixed_elements :
    List Int → List dynamic_dimension → Nat → Nat → Except reshape_error (Nat × Nat)
  | _, [], a, b => .ok (a, b)
  | [], _ :: _, _, _ => .error .out_of_range
  | d :: ds, dd :: dds, a, b =>
    if dd.is_fixed then
      fixed_elements ds dds ((a * to_size_t d) % size_mod) ((b * dd.min) % size_mod)
    else if d ≠ 0 ∧ d ≠ -1 then
      .error .non_fixed_mismatch
    else
      fixed_elements ds dds a b

/-- The `std::transform` of `dyn_compute_shape` over `dims`, reading `dyn_dims`
in step. -/
def output_dyn_dims :
    List Int → List dynamic_dimension → Except reshape_error (List dynamic_dimension)
  | [], _ => .ok []
  | _ :: _, [] => .error .out_of_range
  | d :: ds, dd :: dds =>
    match output_dyn_dims ds dds with
    | .error e => .error e
    | .ok rest =>
      .ok ((if !dd.is_fixed then dd else ⟨to_size_t d, to_size_t d⟩) :: rest)

/-- The method `reshape::dyn_compute_shape`. -/
def reshape.dyn_compute_shape (self : reshape) (s0 : shape) : Except reshape_error shape :=
  let dyn_dims := s0.dyn_dims
  let num_not_fixed := dyn_dims.countP (fun dd => !dd.is_fixed)
  if num_not_fixed ≠ 1 then
    .error .not_one_non_fixed
  else
    match fixed_elements self.dims dyn_dims 1 1 with
    | .error e => .error e
    | .ok (num_dims_ele, num_dd_ele) =>
      if num_dims_ele ≠ num_dd_ele then
        .error (.fixed_elements_mismatch num_dd_ele num_dims_ele)
      else
        match output_dyn_dims self.dims dyn_dims with
        | .error e => .error e
        | .ok out => .ok (.dyn s0.type out)

/-! ## The aliasing algorithm -/

/-- The `std::find_if` of `compute_end_dim`: `x` is the running product, the
list is the range `[start, last)`; the result is the distance from `start` to
the iterator found (the length of the range when there is none) and the final
value of `x`. -/
def find_end (dim : Nat) : List Nat → Nat → Nat × Nat
  | [], x => (0, x)
  | d :: ds, x =>
    let x1 := (x * d) % size_mod
    if x1 ≥ dim then (0, x1)
    else ((find_end dim ds x1).1 + 1, (find_end dim ds x1).2)

/-- The function `reshape::compute_end_dim`, as the distance of the returned
iterator from `start`. -/
def compute_end_dim (range : List Nat) (dim : Nat) : Nat :=
  if (find_end dim range 1).2 ≠ dim then 0 else (find_end dim range 1).1

/-- The `std::for_each` of the unsqueeze branch: divides `stride` by every
size of the run and appends each quotient to `rstrides`. -/
def unsqueeze_strides : List Nat → Nat → List Nat → Except reshape_error (List Nat)
  | [], _, rstrides => .ok rstrides
  | dim :: run, stride, rstrides =>
    if dim = 0 then .error .div_by_zero
    else unsqueeze_strides run (stride / dim) (rstrides ++ [stride / dim])

/-- The local variables of the loop of `reshape_dims`. -/
structure loop_state where
  i : Nat
  r : Nat
  rstrides : List Nat
  deriving DecidableEq, Repr

/-- One iteration of the `while` loop of `reshape_dims`. -/
def reshape_step (idims istrides rdims : List Nat) (st : loop_state) :
    Except reshape_error loop_state :=
  match idims[st.i]?, rdims[st.r]? with
  | some idim, some rdim =>
    if rdim = idim then
      match istrides[st.i]? with
      | none => .error .out_of_range
      | some s => .ok ⟨st.i + 1, st.r + 1, st.rstrides ++ [s]⟩
    else if rdim > idim then
      let n := compute_end_dim (idims.drop st.i) rdim
      match istrides[st.i + n]? with
      | none => .error .out_of_range
      | some s => .ok ⟨st.i + n + 1, st.r + 1, st.rstrides ++ [s]⟩
    else
      if rdims.length ≤ st.i then .error .out_of_range
      else
        let n := compute_end_dim (rdims.drop st.i) idim
        match istrides[st.i]? with
        | none => .error .out_of_range
        | some s =>
          match unsqueeze_strides ((rdims.drop st.i).take (n + 1)) ((s * idim) % size_mod)
              st.rstrides with
          | .error e => .error e
          | .ok rs => .ok ⟨st.i + 1, st.r + n + 1, rs⟩
  | _, _ => .error .out_of_range

/-- The `while(i < idims.size() and r < rdims.size())` loop of `reshape_dims`;
every iteration advances `i`, so `idims.length` iterations are enough. -/
def reshape_loop (idims istrides rdims : List Nat) :
    Nat → loop_state → Except reshape_error loop_state
  | 0, st => .ok st
  | fuel + 1, st =>
    if st.i < idims.length ∧ st.r < rdims.length then
      match reshape_step idims istrides rdims st with
      | .error e => .error e
      | .ok st1 => reshape_loop idims istrides rdims fuel st1
    else .ok st

/-- The "trailing 1s" block of `reshape_dims`. -/
def trailing_strides (rdims rstrides : List Nat) : List Nat :=
  if rstrides.length < rdims.length ∧ rstrides ≠ [] then
    rstrides ++ List.replicate (rdims.length - rstrides.length) (rstrides.getLast?.getD 0)
  else rstrides

/-- The function `reshape::reshape_dims`; the result is an `optional<shape>`. -/
def reshape_dims (input : shape) (rdims : List Nat) : Except reshape_error (Option shape) :=
  if input.standard then
    .ok (some (shape.from_lens input.type rdims))
  else
    match reshape_loop input.lens input.strides rdims input.lens.length ⟨0, 0, []⟩ with
    | .error e => .error e
    | .ok st => .ok (some (.fixed input.type rdims (trailing_strides rdims st.rstrides)))

/-! ## The static resolver -/

/-- The body of the first loop of `static_compute_shape` at one index: `d` is
`dims[i]` and `idim` is `idims[i]` when that read is in bounds. A `0` takes
the input size, a `-1` becomes `1`, any other value is converted to
`std::size_t`. -/
def provisional_dim (d : Int) (idim : Option Nat) : Except reshape_error Nat :=
  if d = 0 then
    match idim with
    | none => .error .out_of_range
    | some v => .ok v
  else if d = -1 then .ok 1
  else .ok (to_size_t d)

/-- The first loop of `static_compute_shape`, over `dims` with `idims` read at
the same index. -/
def provisional_rdims : List Int → List Nat → Except reshape_error (List Nat)
  | [], _ => .ok []
  | d :: ds, idims =>
    match provisional_dim d idims.head? with
    | .error e => .error e
    | .ok v =>
      match provisional_rdims ds idims.tail with
      | .error e => .error e
      | .ok rest => .ok (v :: rest)

/-- The call `std::accumulate(rdims.begin(), rdims.end(), 1, std::multiplies<int64_t>())`:
the initial value `1` is an `int`, so the accumulator is an `int`; every step
multiplies in `int64_t` and converts the product back to `int`, which keeps
the low 32 bits of the product. -/
def accumulate_int : List Nat → Int → Int
  | [], acc => acc
  | d :: ds, acc => accumulate_int ds (to_int32 (acc * to_int64 d))

/-- The second loop of `static_compute_shape`: every slot whose attribute is
`-1` receives `missing_dim`. -/
def fill_missing : List Int → List Nat → Nat → List Nat
  | d :: ds, r :: rs, m => (if d = -1 then m else r) :: fill_missing ds rs m
  | _, rs, _ => rs

/-- The method `reshape::static_compute_shape`. -/
def reshape.static_compute_shape (self : reshape) (inputs : List shape) (n_neg_dims : Nat) :
    Except reshape_error shape :=
  match inputs with
  | [input] =>
    if input.dynamic then .error .check_shapes
    else
      match provisional_rdims self.dims input.lens with
      | .error e => .error e
      | .ok rdims0 =>
        let missing : Except reshape_error (List Nat) :=
          if n_neg_dims > 0 then
            let divisor := to_size_t (accumulate_int rdims0 1)
            if divisor = 0 then .error .div_by_zero
            else .ok (fill_missing self.dims rdims0 ((input.elements / divisor) % size_mod))
          else .ok rdims0
        match missing with
        | .error e => .error e
        | .ok rdims =>
          match reshape_dims input rdims with
          | .error e => .error e
          | .ok none => .error .out_of_range
          | .ok (some s) =>
            if s.elements ≠ input.elements then
              .error (.wrong_number_of_elements s.elements input.elements)
            else .ok s
  | _ => .error .check_shapes

/-- The method `reshape::compute_shape`. -/
def reshape.compute_shape (self : reshape) (inputs : List shape) : Except reshape_error shape :=
  match inputs with
  | [s0] =>
    let n_neg_dims := self.dims.count (-1)
    if n_neg_dims > 1 then .error .more_than_one_neg_dim
    else if s0.dynamic then self.dyn_compute_shape s0
    else self.static_compute_shape inputs n_neg_dims
  | _ => .error .check_shapes

/-! ## Quantities the statements speak of -/

/-- The exact product of the attribute entries at the fixed axes of `dyn_dims`
(the quantity `Pa` of the specification). -/
def fixed_attribute_product : List Int → List dynamic_dimension → Int
  | d :: ds, dd :: dds =>
    if dd.is_fixed then d * fixed_attribute_product ds dds else fixed_attribute_product ds dds
  | _, _ => 1

/-- The exact product of the sizes of the fixed axes of `dyn_dims` (the
quantity `Pb` of the specification). -/
def fixed_input_product : List dynamic_dimension → Nat
  | [] => 1
  | dd :: dds => if dd.is_fixed then dd.min * fixed_input_product dds else fixed_input_product dds

/-- The number of non-fixed axes (`min ≠ max`) of a list of ranges. -/
def num_non_fixed (dds : List dynamic_dimension) : Nat :=
  dds.countP (fun dd => decide (dd.min ≠ dd.max))

/-- The size an attribute entry other than `-1` resolves to: the input size at
the same index for a `0`, the entry itself otherwise. -/
def resolved_entry (d : Int) (idim : Option Nat) : Nat :=
  if d = 0 then idim.getD 0 else d.toNat

/-- The exact product of the resolved entries of the attribute other than the
`-1` entries (the quantity `P` of the statements on inference); `idims` are
the input sizes from the index of the first entry on. -/
def other_entries_product : List Int → List Nat → Nat
  | [], _ => 1
  | d :: ds, idims =>
    (if d = -1 then 1 else resolved_entry d idims.head?) * other_entries_product ds idims.tail

/-- The offsets `k * s` for `k = 0, .., d - 1`: one axis of size `d` and
stride `s`. -/
def axis_offsets (d s : Nat) : List Nat := (List.range d).map (fun k => k * s)

/-- Every sum `a + b` with `a` from `xs` (outer, slow) and `b` from `ys`
(inner, fast), in that order. -/
def combine (xs ys : List Nat) : List Nat := xs.flatMap (fun a => ys.map (fun b => a + b))

/-- The storage offsets visited when all the multi-indices of `dims` are
enumerated in row-major order (last axis fastest) and each is mapped through
`strides` (the sum of index times stride over the axes). -/
def offsets : List Nat → List Nat → List Nat
  | [], _ => [0]
  | d :: ds, strides => combine (axis_offsets d (strides.headD 0)) (offsets ds strides.tail)

/-- The axes of a run are laid out contiguously relative to one another: every
stride but the last is the next size times the next stride. -/
def contiguous : List Nat → List Nat → Bool
  | _ :: d1 :: ds, s0 :: s1 :: ss => s0 == d1 * s1 && contiguous (d1 :: ds) (s1 :: ss)
  | _, _ => true

/-- The strides of a run of axes laid out contiguously relative to one another
whose last stride is `s`: every stride is `s` times the product of the sizes
to its right within the run. -/
def chain_strides : List Nat → Nat → List Nat
  | [], _ => []
  | _ :: ds, s => (ds.prod * s) :: chain_strides ds s

/-- The invariant of the loop of `reshape_dims` on the runs where every step
satisfies `step_exact`: one stride has been produced per consumed target axis,
and the consumed target axes with the produced strides visit the offsets of
the consumed input axes. -/
def loop_inv (idims istrides rdims : List Nat) (st : loop_state) : Prop :=
  st.rstrides.length = st.r ∧ st.i ≤ idims.length ∧ st.r ≤ rdims.length ∧
    offsets (rdims.take st.r) st.rstrides = offsets (idims.take st.i) (istrides.take st.i) ∧
    (rdims.take st.r).prod = (idims.take st.i).prod

/-- The condition under which one iteration of the loop of `reshape_dims`
keeps the traversal order. An equal step always does. A squeeze step does
when `compute_end_dim` finds a run (it does not return `start`) and the axes
of the run are contiguous relative to one another. An unsqueeze step does when
both cursors are at the same position, `compute_end_dim` finds a run, and the
product `istrides[i] * idim` does not overflow. -/
def step_exact (idims istrides rdims : List Nat) (st : loop_state) : Bool :=
  match idims[st.i]?, rdims[st.r]? with
  | some idim, some rdim =>
    if rdim = idim then true
    else if rdim > idim then
      let n := compute_end_dim (idims.drop st.i) rdim
      decide (n ≠ 0) &&
        contiguous ((idims.drop st.i).take (n + 1)) ((istrides.drop st.i).take (n + 1))
    else
      decide (st.i = st.r) && decide (compute_end_dim (rdims.drop st.i) idim ≠ 0) &&
        decide ((istrides[st.i]?.getD 0) * idim < size_mod)
  | _, _ => true

/-- Every iteration of the loop of `reshape_dims` run from `st` satisfies
`step_exact`. -/
def steps_exact (idims istrides rdims : List Nat) : Nat → loop_state → Bool
  | 0, _ => true
  | fuel + 1, st =>
    if st.i < idims.length ∧ st.r < rdims.length then
      step_exact idims istrides rdims st &&
        match reshape_step idims istrides rdims st with
        | .error _ => true
        | .ok st1 => steps_exact idims istrides rdims fuel st1
    else true

/-! ## The materializer -/

/-- Modelled from the spec: `argument` (declared outside the translated
sources), a typed, shaped view over raw storage. The storage is addressed by
element offset; a cell that was never written holds no value. -/
structure argument (α : Type) where
  get_shape : shape
  data : Nat → Option α

/-- Modelled from the spec: the elements of an argument in logical (row-major)
order, as the iteration `begin() .. end()` of its view yields them: the cell
at the offset of every multi-index of the shape. -/
def argument.elements_in_order {α : Type} (a : argument α) : List (Option α) :=
  (offsets a.get_shape.lens a.get_shape.strides).map a.data

/-- Modelled from the spec: the constructor `argument{shape}`, a buffer of
that shape over fresh storage. -/
def argument.allocate {α : Type} (s : shape) : argument α := ⟨s, fun _ => none⟩

/-- The call `std::copy(input.begin(), input.end(), output.begin())`: the
`k`-th value read from the input goes to the cell at the offset of the `k`-th
multi-index of the output (`offs`); a write past the last position of the
output has no defined result. -/
def std_copy {α : Type} :
    List (Option α) → List Nat → (Nat → Option α) → Except reshape_error (Nat → Option α)
  | [], _, data => .ok data
  | _ :: _, [], _ => .error .out_of_range
  | v :: vs, o :: os, data => std_copy vs os (fun k => if k = o then v else data k)

/-- Modelled from the spec: `dyn_output` (declared outside the translated
sources), which carries the resolved output shape. -/
structure dyn_output where
  computed_shape : shape

/-- The method `reshape::compute`. `visit_all` hands the two buffers to the
copy when their element types agree. -/
def reshape.compute {α : Type} (_self : reshape) (dyn_out : dyn_output)
    (args : List (argument α)) : Except reshape_error (argument α) :=
  match args[0]? with
  | none => .error .out_of_range
  | some input =>
    let result : argument α := argument.allocate dyn_out.computed_shape
    if result.get_shape.type ≠ input.get_shape.type then .error .type_mismatch
    else
      match std_copy input.elements_in_order
          (offsets result.get_shape.lens result.get_shape.strides) result.data with
      | .error e => .error e
      | .ok data => .ok ⟨result.get_shape, data⟩

/-! ## Arithmetic of the embedding -/

theorem countP_not_fixed (dds : List dynamic_dimension) :
    dds.countP (fun dd => !dd.is_fixed) = num_non_fixed dds := by
  unfold num_non_fixed
  congr 1
  funext dd
  rw [Bool.eq_iff_iff]
  simp [dynamic_dimension.is_fixed]

/-! ## The check on the number of `-1` entries -/

/-- C4: for a single input shape, static or dynamic, an attribute holding two
or more `-1` entries makes `compute_shape` fail with the error "can only have
one -1 dim"; the test precedes the dispatch on `dynamic()`. -/
theorem compute_shape_two_neg_dims (self : reshape) (s0 : shape)
    (h : 2 ≤ self.dims.count (-1)) :
    self.compute_shape [s0] = .error .more_than_one_neg_dim := by
  have h1 : self.dims.count (-1) > 1 := h
  simp [reshape.compute_shape, h1]

theorem compute_shape_two_neg_dims_witness :
    2 ≤ (reshape.mk [-1, 4, -1]).dims.count (-1) ∧
      (reshape.mk [-1, 4, -1]).compute_shape [shape.dyn .float_type [⟨3, 3⟩, ⟨1, 8⟩]]
        = .error .more_than_one_neg_dim :=
  ⟨by decide, compute_shape_two_neg_dims _ _ (by decide)⟩

/-! ## The dynamic resolver -/

/-- C9: when the number of non-fixed axes of the input is not exactly one,
`dyn_compute_shape` fails with "Only supports one non-fixed
dynamic_dimension", whatever the attribute. -/
theorem dyn_compute_shape_not_one_non_fixed (self : reshape) (t : type_t)
    (dds : List dynamic_dimension) (h : num_non_fixed dds ≠ 1) :
    self.dyn_compute_shape (.dyn t dds) = .error .not_one_non_fixed := by
  simp [reshape.dyn_compute_shape, shape.dyn_dims, countP_not_fixed, h]

theorem dyn_compute_shape_not_one_non_fixed_witness :
    num_non_fixed [⟨1, 4⟩, ⟨2, 2⟩, ⟨1, 8⟩] ≠ 1 ∧
      (reshape.mk [0, 2, -1]).dyn_compute_shape (.dyn .float_type [⟨1, 4⟩, ⟨2, 2⟩, ⟨1, 8⟩])
        = .error .not_one_non_fixed :=
  ⟨by decide, dyn_compute_shape_not_one_non_fixed _ _ _ (by decide)⟩

theorem to_size_t_cast (d : Int) : ((to_size_t d : Nat) : Int) = d % 2 ^ 64 := by
  unfold to_size_t
  exact Int.toNat_of_nonneg (Int.emod_nonneg _ (by norm_num))

theorem to_size_t_of_nonneg (d : Int) (h0 : 0 ≤ d) (h1 : d < 2 ^ 64) :
    ((to_size_t d : Nat) : Int) = d := by
  rw [to_size_t_cast]
  exact Int.emod_eq_of_lt h0 h1

/-- What the `std::transform` of `dyn_compute_shape` writes at every index. -/
theorem output_dyn_dims_ok (dims : List Int) :
    ∀ (dds outs : List dynamic_dimension), output_dyn_dims dims dds = .ok outs →
      outs.length = dims.length ∧
      ∀ (i : Nat) (d : Int) (dd : dynamic_dimension), dims[i]? = some d → dds[i]? = some dd →
        outs[i]? = some (if !dd.is_fixed then dd else ⟨to_size_t d, to_size_t d⟩) := by
  induction dims with
  | nil =>
    intro dds outs h
    simp [output_dyn_dims] at h
    subst h
    simp
  | cons d0 ds ih =>
    intro dds outs h
    cases dds with
    | nil => simp [output_dyn_dims] at h
    | cons dd0 dds =>
      simp only [output_dyn_dims] at h
      split at h
      · simp at h
      · rename_i rest hrest
        simp only [Except.ok.injEq] at h
        subst h
        obtain ⟨hl, hi⟩ := ih dds rest hrest
        refine ⟨by simp [hl], ?_⟩
        intro i d dd hd hdd
        cases i with
        | zero =>
          simp only [List.getElem?_cons_zero, Option.some.injEq] at hd hdd ⊢
          subst hd hdd
          rfl
        | succ k =>
          simp only [List.getElem?_cons_succ] at hd hdd ⊢
          exact hi k d dd hd hdd

theorem output_dyn_dims_length (dims : List Int) :
    ∀ (dds outs : List dynamic_dimension), output_dyn_dims dims dds = .ok outs →
      dims.length ≤ dds.length := by
  induction dims with
  | nil => intro dds outs _; simp
  | cons d0 ds ih =>
    intro dds outs h
    cases dds with
    | nil => simp [output_dyn_dims] at h
    | cons dd0 dds =>
      simp only [output_dyn_dims] at h
      split at h
      · cases h
      · rename_i rest hrest
        have := ih dds rest hrest
        simpa using this

theorem output_dyn_dims_total (dims : List Int) :
    ∀ (dds : List dynamic_dimension), dims.length ≤ dds.length →
      ∃ outs, output_dyn_dims dims dds = .ok outs := by
  induction dims with
  | nil => intro dds _; exact ⟨[], rfl⟩
  | cons d0 ds ih =>
    intro dds h
    cases dds with
    | nil => simp at h
    | cons dd0 dds =>
      obtain ⟨rest, hrest⟩ := ih dds (by simpa using h)
      refine ⟨(if !dd0.is_fixed then dd0 else ⟨to_size_t d0, to_size_t d0⟩) :: rest, ?_⟩
      simp [output_dyn_dims, hrest]

/-- The loop of `dyn_compute_shape` stops with "doesn't match with 0 or -1" at
the first non-fixed axis whose attribute entry is neither `0` nor `-1`. -/
theorem fixed_elements_literal (j : Nat) :
    ∀ (dims : List Int) (dds : List dynamic_dimension) (a b : Nat) (d : Int)
      (dd : dynamic_dimension), dims[j]? = some d → dds[j]? = some dd →
      dd.is_fixed = false → d ≠ 0 → d ≠ -1 →
      (∀ (i : Nat) (dd1 : dynamic_dimension), i < j → dds[i]? = some dd1 → dd1.is_fixed = true) →
      dims.length = dds.length →
      fixed_elements dims dds a b = .error .non_fixed_mismatch := by
  induction j with
  | zero =>
    intro dims dds a b d dd hd hdd hnf h0 h1 _ _
    cases dims with
    | nil => simp at hd
    | cons d0 ds =>
      cases dds with
      | nil => simp at hdd
      | cons dd0 dds =>
        simp only [List.getElem?_cons_zero, Option.some.injEq] at hd hdd
        subst hd hdd
        simp [fixed_elements, hnf, h0, h1]
  | succ k ih =>
    intro dims dds a b d dd hd hdd hnf h0 h1 hbefore hlen
    cases dims with
    | nil => simp at hd
    | cons d0 ds =>
      cases dds with
      | nil => simp at hdd
      | cons dd0 dds =>
        simp only [List.getElem?_cons_succ] at hd hdd
        have hfix : dd0.is_fixed = true := hbefore 0 dd0 (Nat.succ_pos k) (by simp)
        simp only [fixed_elements, hfix, if_true]
        apply ih ds dds _ _ d dd hd hdd hnf h0 h1
        · intro i dd1 hi hdd1
          exact hbefore (i + 1) dd1 (Nat.succ_lt_succ hi) (by simpa using hdd1)
        · simpa using hlen

/-- With exactly one non-fixed axis, every other axis is fixed. -/
theorem fixed_of_num_non_fixed_one :
    ∀ (dds : List dynamic_dimension) (j : Nat) (dd : dynamic_dimension),
      num_non_fixed dds = 1 → dds[j]? = some dd → dd.is_fixed = false →
      ∀ (i : Nat) (dd1 : dynamic_dimension), i ≠ j → dds[i]? = some dd1 → dd1.is_fixed = true := by
  intro dds
  induction dds with
  | nil => intro j dd _ h; simp at h
  | cons dd0 dds ih =>
    intro j dd hone hj hnf i dd1 hij hi
    unfold num_non_fixed at hone ih
    cases j with
    | zero =>
      simp only [List.getElem?_cons_zero, Option.some.injEq] at hj
      subst hj
      have hne : decide (dd0.min ≠ dd0.max) = true := by
        simpa [dynamic_dimension.is_fixed] using hnf
      rw [List.countP_cons_of_pos (fun dd => decide (dd.min ≠ dd.max)) dds hne] at hone
      have hzero : dds.countP (fun dd => decide (dd.min ≠ dd.max)) = 0 := by omega
      cases i with
      | zero => exact absurd rfl hij
      | succ k =>
        simp only [List.getElem?_cons_succ] at hi
        have hmem : dd1 ∈ dds := List.getElem?_mem hi
        rw [List.countP_eq_zero] at hzero
        have := hzero dd1 hmem
        simpa [dynamic_dimension.is_fixed] using this
    | succ m =>
      simp only [List.getElem?_cons_succ] at hj
      have hmem : dd ∈ dds := List.getElem?_mem hj
      have hne : decide (dd.min ≠ dd.max) = true := by
        simpa [dynamic_dimension.is_fixed] using hnf
      have hpos : 0 < dds.countP (fun dd => decide (dd.min ≠ dd.max)) :=
        List.countP_pos_iff.mpr ⟨dd, hmem, hne⟩
      cases i with
      | zero =>
        simp only [List.getElem?_cons_zero, Option.some.injEq] at hi
        subst hi
        by_contra hc
        have hne0 : decide (dd0.min ≠ dd0.max) = true := by
          simpa [dynamic_dimension.is_fixed] using hc
        rw [List.countP_cons_of_pos (fun dd => decide (dd.min ≠ dd.max)) dds hne0] at hone
        omega
      | succ k =>
        simp only [List.getElem?_cons_succ] at hi
        have hone1 : dds.countP (fun dd => decide (dd.min ≠ dd.max)) = 1 := by
          by_cases hc : decide (dd0.min ≠ dd0.max) = true
          · rw [List.countP_cons_of_pos (fun dd => decide (dd.min ≠ dd.max)) dds hc] at hone
            omega
          · rw [List.countP_cons_of_neg (fun dd => decide (dd.min ≠ dd.max)) dds hc] at hone
            exact hone
        exact ih m dd hone1 hj hnf k dd1 (by omega) hi

/-- C10: with exactly one non-fixed axis, at position `j`, and an attribute of
the same length whose entry at `j` is neither `0` nor `-1`, `dyn_compute_shape`
fails with "Non-fixed dynamic_dimension doesn't match with 0 or -1 output
dimension", whatever the products of the fixed portions are. -/
theorem dyn_compute_shape_literal_on_non_fixed (self : reshape) (t : type_t)
    (dds : List dynamic_dimension) (j : Nat) (d : Int) (dd : dynamic_dimension)
    (hone : num_non_fixed dds = 1) (hlen : self.dims.length = dds.length)
    (hdd : dds[j]? = some dd) (hnf : dd.min ≠ dd.max)
    (hd : self.dims[j]? = some d) (h0 : d ≠ 0) (h1 : d ≠ -1) :
    self.dyn_compute_shape (.dyn t dds) = .error .non_fixed_mismatch := by
  have hnf1 : dd.is_fixed = false := by simpa [dynamic_dimension.is_fixed] using hnf
  have hothers := fixed_of_num_non_fixed_one dds j dd hone hdd hnf1
  have hloop := fixed_elements_literal j self.dims dds 1 1 d dd hd hdd hnf1 h0 h1
    (fun i dd1 hi h => hothers i dd1 (by omega) h) hlen
  simp [reshape.dyn_compute_shape, shape.dyn_dims, countP_not_fixed, hone, hloop]

theorem dyn_compute_shape_literal_on_non_fixed_witness :
    num_non_fixed [⟨3, 3⟩, ⟨1, 8⟩] = 1 ∧
      (reshape.mk [3, 5]).dims.length = [(⟨3, 3⟩ : dynamic_dimension), ⟨1, 8⟩].length ∧
      [(⟨3, 3⟩ : dynamic_dimension), ⟨1, 8⟩][1]? = some ⟨1, 8⟩ ∧
      (reshape.mk [3, 5]).dims[1]? = some 5 ∧
      (reshape.mk [3, 5]).dyn_compute_shape (.dyn .float_type [⟨3, 3⟩, ⟨1, 8⟩])
        = .error .non_fixed_mismatch :=
  ⟨by decide, by decide, by decide, by decide,
    dyn_compute_shape_literal_on_non_fixed (reshape.mk [3, 5]) .float_type [⟨3, 3⟩, ⟨1, 8⟩] 1 5
      ⟨1, 8⟩ (by decide) (by decide) (by decide) (by decide) (by decide) (by decide) (by decide)⟩

/-- The two accumulators of the loop of `dyn_compute_shape` when every
non-fixed axis has a `0` or `-1` attribute entry: the products of the fixed
portions, reduced modulo `2^64`. -/
theorem fixed_elements_value (dims : List Int) :
    ∀ (dds : List dynamic_dimension) (a b : Nat), a < size_mod → b < size_mod →
      dims.length = dds.length →
      (∀ p ∈ dims.zip dds, p.2.is_fixed = false → p.1 = 0 ∨ p.1 = -1) →
      ∃ A : Nat,
        fixed_elements dims dds a b
            = .ok ((a * A) % size_mod, (b * fixed_input_product dds) % size_mod) ∧
          Int.ModEq (2 ^ 64) (A : Int) (fixed_attribute_product dims dds) := by
  induction dims with
  | nil =>
    intro dds a b ha hb hlen _
    cases dds with
    | nil =>
      refine ⟨1, ?_, ?_⟩
      · simp [fixed_elements, fixed_input_product, Nat.mod_eq_of_lt ha, Nat.mod_eq_of_lt hb]
      · simp [fixed_attribute_product, Int.ModEq]
    | cons dd0 dds => simp at hlen
  | cons d0 ds ih =>
    intro dds a b ha hb hlen hent
    cases dds with
    | nil => simp at hlen
    | cons dd0 dds =>
      have hlen1 : ds.length = dds.length := by simpa using hlen
      have hent1 : ∀ p ∈ ds.zip dds, p.2.is_fixed = false → p.1 = 0 ∨ p.1 = -1 := by
        intro p hp
        exact hent p (by simp [List.zip_cons_cons, hp])
      have hM : 0 < size_mod := by unfold size_mod; norm_num
      by_cases hfix : dd0.is_fixed = true
      · obtain ⟨A1, hfe, hA1⟩ := ih dds ((a * to_size_t d0) % size_mod)
          ((b * dd0.min) % size_mod) (Nat.mod_lt _ hM) (Nat.mod_lt _ hM) hlen1 hent1
        refine ⟨to_size_t d0 * A1, ?_, ?_⟩
        · simp only [fixed_elements, hfix, if_true, hfe, fixed_input_product]
          congr 2
          · rw [Nat.mul_mod (a * to_size_t d0 % size_mod) A1, Nat.mod_mod, ← Nat.mul_mod,
              Nat.mul_assoc]
          · rw [Nat.mul_mod (b * dd0.min % size_mod) _, Nat.mod_mod, ← Nat.mul_mod,
              Nat.mul_assoc]
        · have h1 : Int.ModEq (2 ^ 64) ((to_size_t d0 : Nat) : Int) d0 := by
            unfold Int.ModEq
            rw [to_size_t_cast]
            exact Int.emod_emod_of_dvd _ (dvd_refl _)
          simp only [fixed_attribute_product, hfix, if_true]
          push_cast
          exact h1.mul hA1
      · have hfix1 : dd0.is_fixed = false := by simpa using hfix
        obtain ⟨A1, hfe, hA1⟩ := ih dds a b ha hb hlen1 hent1
        have hd := hent (d0, dd0) (by simp [List.zip_cons_cons]) hfix1
        have hcond : ¬(d0 ≠ 0 ∧ d0 ≠ -1) := by
          rintro ⟨hc0, hc1⟩
          rcases hd with h | h
          · exact hc0 h
          · exact hc1 h
        refine ⟨A1, ?_, ?_⟩
        · simp only [fixed_elements, hfix1, hcond, if_false, hfe, fixed_input_product]
          simp
        · simpa [fixed_attribute_product, hfix1] using hA1

theorem fixed_attribute_product_nonneg (dims : List Int) :
    ∀ (dds : List dynamic_dimension),
      (∀ p ∈ dims.zip dds, p.2.is_fixed = true → 0 ≤ p.1) →
      0 ≤ fixed_attribute_product dims dds := by
  induction dims with
  | nil => intro dds _; simp [fixed_attribute_product]
  | cons d0 ds ih =>
    intro dds h
    cases dds with
    | nil => simp [fixed_attribute_product]
    | cons dd0 dds =>
      have h1 := ih dds (fun p hp => h p (by simp [List.zip_cons_cons, hp]))
      by_cases hfix : dd0.is_fixed = true
      · have hd := h (d0, dd0) (by simp [List.zip_cons_cons]) hfix
        simp only [fixed_attribute_product, hfix, if_true]
        exact mul_nonneg hd h1
      · simpa [fixed_attribute_product, hfix] using h1

/-- C8: with exactly one non-fixed axis, an attribute of the same length whose
entry at the non-fixed axis is `0` or `-1` and whose entries at the fixed axes
are non-negative, and both fixed-portion products below `2^64`,
`dyn_compute_shape` returns a shape exactly when the product of the attribute
entries at the fixed axes equals the product of the input's fixed sizes, and
otherwise fails with "Number of fixed elements must match", reporting both
products. -/
theorem dyn_compute_shape_fixed_portion (self : reshape) (t : type_t)
    (dds : List dynamic_dimension)
    (hone : num_non_fixed dds = 1) (hlen : self.dims.length = dds.length)
    (hent : ∀ p ∈ self.dims.zip dds,
      (p.2.is_fixed = false → p.1 = 0 ∨ p.1 = -1) ∧ (p.2.is_fixed = true → 0 ≤ p.1))
    (hPa : fixed_attribute_product self.dims dds < 2 ^ 64)
    (hPb : fixed_input_product dds < 2 ^ 64) :
    ((∃ out, self.dyn_compute_shape (.dyn t dds) = .ok out) ↔
        fixed_attribute_product self.dims dds = (fixed_input_product dds : Int)) ∧
      (fixed_attribute_product self.dims dds ≠ (fixed_input_product dds : Int) →
        self.dyn_compute_shape (.dyn t dds)
          = .error (.fixed_elements_mismatch (fixed_input_product dds)
              (fixed_attribute_product self.dims dds).toNat)) := by
  have hM : (1 : Nat) < size_mod := by unfold size_mod; norm_num
  obtain ⟨A, hfe, hA⟩ := fixed_elements_value self.dims dds 1 1 hM hM hlen
    (fun p hp => (hent p hp).1)
  have h0 := fixed_attribute_product_nonneg self.dims dds (fun p hp => (hent p hp).2)
  have hAval : A % size_mod = (fixed_attribute_product self.dims dds).toNat := by
    have h1 : ((A : Int)) % 2 ^ 64 = fixed_attribute_product self.dims dds := by
      rw [hA]
      exact Int.emod_eq_of_lt h0 hPa
    have h2 : ((A % size_mod : Nat) : Int) = fixed_attribute_product self.dims dds := by
      rw [← h1]
      unfold size_mod
      push_cast
      rfl
    have h3 := congrArg Int.toNat h2
    simpa using h3
  have hBval : fixed_input_product dds % size_mod = fixed_input_product dds :=
    Nat.mod_eq_of_lt (by unfold size_mod; exact hPb)
  have hiff : (fixed_attribute_product self.dims dds).toNat = fixed_input_product dds ↔
      fixed_attribute_product self.dims dds = (fixed_input_product dds : Int) := by
    constructor
    · intro h
      rw [← h]
      exact (Int.toNat_of_nonneg h0).symm
    · intro h
      rw [h]
      simp
  obtain ⟨outs, houts⟩ := output_dyn_dims_total self.dims dds (le_of_eq hlen)
  have hrun : self.dyn_compute_shape (.dyn t dds) =
      if (fixed_attribute_product self.dims dds).toNat ≠ fixed_input_product dds then
        .error (.fixed_elements_mismatch (fixed_input_product dds)
          (fixed_attribute_product self.dims dds).toNat)
      else .ok (.dyn t outs) := by
    simp only [reshape.dyn_compute_shape, shape.dyn_dims, countP_not_fixed, hone, hfe,
      Nat.one_mul, hAval, hBval, houts, shape.type]
    simp
  constructor
  · constructor
    · rintro ⟨out, hout⟩
      rw [hrun] at hout
      by_contra hne
      rw [if_pos (fun h => hne (hiff.mp h))] at hout
      cases hout
    · intro h
      refine ⟨.dyn t outs, ?_⟩
      rw [hrun, if_neg (fun hc => hc (hiff.mpr h))]
  · intro hne
    rw [hrun, if_pos (fun h => hne (hiff.mp h))]

theorem dyn_compute_shape_fixed_portion_witness :
    (fixed_attribute_product (reshape.mk [8, 0]).dims [⟨4, 4⟩, ⟨1, 8⟩] ≠
        (fixed_input_product [⟨4, 4⟩, ⟨1, 8⟩] : Int)) ∧
      (reshape.mk [8, 0]).dyn_compute_shape (.dyn .float_type [⟨4, 4⟩, ⟨1, 8⟩])
        = .error (.fixed_elements_mismatch 4 8) :=
  ⟨by decide,
    (dyn_compute_shape_fixed_portion (reshape.mk [8, 0]) .float_type [⟨4, 4⟩, ⟨1, 8⟩]
      (by decide) (by decide) (by decide) (by decide) (by decide)).2 (by decide)⟩

theorem fixed_elements_length (dims : List Int) :
    ∀ (dds : List dynamic_dimension) (a b : Nat) (res : Nat × Nat),
      fixed_elements dims dds a b = .ok res → dds.length ≤ dims.length := by
  induction dims with
  | nil =>
    intro dds a b res h
    cases dds with
    | nil => simp
    | cons dd0 dds => simp [fixed_elements] at h
  | cons d0 ds ih =>
    intro dds a b res h
    cases dds with
    | nil => simp
    | cons dd0 dds =>
      simp only [fixed_elements] at h
      split at h
      · have := ih dds _ _ res h
        simpa using this
      · split at h
        · cases h
        · have := ih dds _ _ res h
          simpa using this

/-- C7 (as amended): when `dyn_compute_shape` returns a shape, the shape is
dynamic with the input's element type, it has one range per attribute entry
(and per input axis), the range at every non-fixed input axis is the input's
range unchanged, and the range at every fixed axis `i` is `[v, v]` where `v`
is `dims[i]` converted to `std::size_t`: `dims[i]` modulo `2^64`, which is
`dims[i]` itself when `0 ≤ dims[i] < 2^64`. -/
theorem dyn_compute_shape_passthrough (self : reshape) (t : type_t)
    (dds : List dynamic_dimension) (out : shape)
    (h : self.dyn_compute_shape (.dyn t dds) = .ok out) :
    ∃ outs : List dynamic_dimension,
      out = .dyn t outs ∧ outs.length = self.dims.length ∧ outs.length = dds.length ∧
      (∀ (j : Nat) (dd : dynamic_dimension), dds[j]? = some dd → dd.min ≠ dd.max →
        outs[j]? = some dd) ∧
      (∀ (i : Nat) (d : Int) (dd : dynamic_dimension), self.dims[i]? = some d →
        dds[i]? = some dd → dd.min = dd.max →
        ∃ v : Nat, outs[i]? = some ⟨v, v⟩ ∧ (v : Int) = d % 2 ^ 64 ∧
          (0 ≤ d → d < 2 ^ 64 → (v : Int) = d)) := by
  unfold reshape.dyn_compute_shape at h
  simp only [shape.dyn_dims, shape.type] at h
  split at h
  · cases h
  · split at h
    · cases h
    · rename_i a b hfe
      split at h
      · cases h
      · split at h
        · cases h
        · rename_i outs houts
          simp only [Except.ok.injEq] at h
          obtain ⟨hl, hi⟩ := output_dyn_dims_ok self.dims dds outs houts
          have hl2 := fixed_elements_length self.dims dds 1 1 (a, b) hfe
          have hl3 := output_dyn_dims_length self.dims dds outs houts
          refine ⟨outs, h.symm, hl, by omega, ?_, ?_⟩
          · intro j dd hdd hne
            have hj : j < dds.length := (List.getElem?_eq_some.mp hdd).1
            have hj1 : j < self.dims.length := by omega
            have hd : self.dims[j]? = some (self.dims[j]) := List.getElem?_eq_getElem hj1
            rw [hi j _ dd hd hdd]
            simp [dynamic_dimension.is_fixed, hne]
          · intro i d dd hd hdd heq
            refine ⟨to_size_t d, ?_, to_size_t_cast d, to_size_t_of_nonneg d⟩
            rw [hi i d dd hd hdd]
            simp [dynamic_dimension.is_fixed, heq]

theorem dyn_compute_shape_passthrough_witness :
    (reshape.mk [3, -1]).dyn_compute_shape (.dyn .float_type [⟨3, 3⟩, ⟨1, 8⟩])
        = .ok (.dyn .float_type [⟨3, 3⟩, ⟨1, 8⟩]) ∧
      ∃ outs : List dynamic_dimension,
        shape.dyn .float_type [⟨3, 3⟩, ⟨1, 8⟩] = .dyn .float_type outs ∧
        outs.length = (reshape.mk [3, -1]).dims.length ∧
        outs.length = [(⟨3, 3⟩ : dynamic_dimension), ⟨1, 8⟩].length ∧
        (∀ (j : Nat) (dd : dynamic_dimension),
          [(⟨3, 3⟩ : dynamic_dimension), ⟨1, 8⟩][j]? = some dd → dd.min ≠ dd.max →
          outs[j]? = some dd) ∧
        (∀ (i : Nat) (d : Int) (dd : dynamic_dimension), (reshape.mk [3, -1]).dims[i]? = some d →
          [(⟨3, 3⟩ : dynamic_dimension), ⟨1, 8⟩][i]? = some dd → dd.min = dd.max →
          ∃ v : Nat, outs[i]? = some ⟨v, v⟩ ∧ (v : Int) = d % 2 ^ 64 ∧
            (0 ≤ d → d < 2 ^ 64 → (v : Int) = d)) :=
  ⟨by decide,
    dyn_compute_shape_passthrough (reshape.mk [3, -1]) .float_type [⟨3, 3⟩, ⟨1, 8⟩]
      (.dyn .float_type [⟨3, 3⟩, ⟨1, 8⟩]) (by decide)⟩

/-- C7 (counterexample): the input (fixed 1, fixed 3, range [1,8]) with the
attribute `[-1, -3, 0]` has exactly one non-fixed axis and an attribute of the
same length, and `dyn_compute_shape` returns a shape (the fixed portions are
`(-1) * (-3) = 3` modulo `2^64` and `1 * 3 = 3`); the range at the fixed axis
`0` is `[2^64 - 1, 2^64 - 1]`, which is not `[dims[0], dims[0]] = [-1, -1]`. -/
theorem dyn_compute_shape_negative_fixed_entry :
    num_non_fixed [⟨1, 1⟩, ⟨3, 3⟩, ⟨1, 8⟩] = 1 ∧
      (reshape.mk [-1, -3, 0]).dyn_compute_shape (.dyn .float_type [⟨1, 1⟩, ⟨3, 3⟩, ⟨1, 8⟩])
        = .ok (.dyn .float_type
            [⟨18446744073709551615, 18446744073709551615⟩,
              ⟨18446744073709551613, 18446744073709551613⟩, ⟨1, 8⟩]) ∧
      ((18446744073709551615 : Nat) : Int) ≠ (-1 : Int) := by
  refine ⟨by decide, by decide, by decide⟩

/-! ## The static resolver -/

theorem elements_from_lens (t : type_t) (l : List Nat) :
    (shape.from_lens t l).elements = l.prod % size_mod := rfl

theorem elements_of_lt (s : shape) (h : s.lens.prod < 2 ^ 64) : s.elements = s.lens.prod := by
  unfold shape.elements size_mod
  exact Nat.mod_eq_of_lt h

/-- A shape returned by the static resolver has passed the guard on the two
64-bit element counts. -/
theorem static_compute_shape_elements (self : reshape) (inputs : List shape) (n : Nat)
    (out : shape) (h : self.static_compute_shape inputs n = .ok out) :
    ∃ input, inputs = [input] ∧ out.elements = input.elements := by
  unfold reshape.static_compute_shape at h
  split at h
  · rename_i input
    refine ⟨input, rfl, ?_⟩
    split at h
    · cases h
    · split at h
      · cases h
      · simp only at h
        split at h
        · cases h
        · split at h
          · cases h
          · cases h
          · rename_i s hs
            split at h
            · cases h
            · rename_i heq
              simp only [Except.ok.injEq] at h
              subst h
              simpa using heq
  · cases h

/-- C1 (counterexample): the standard input of sizes `[5]` with the attribute
`[3, 6148914691236517207]`. The product of the target sizes is `2^64 + 5`,
whose 64-bit element count is `5`, the element count of the input; the guard
passes and `compute_shape` returns the sizes `[3, 6148914691236517207]`, whose
product is not the product `5` of the sizes of the input. -/
theorem compute_shape_element_count_wraps :
    (shape.from_lens .float_type [5]).dynamic = false ∧
      (reshape.mk [3, 6148914691236517207]).compute_shape [shape.from_lens .float_type [5]]
        = .ok (shape.from_lens .float_type [3, 6148914691236517207]) ∧
      (shape.from_lens .float_type [3, 6148914691236517207]).lens.prod
        = 18446744073709551621 ∧
      (shape.from_lens .float_type [5]).lens.prod = 5 ∧
      (shape.from_lens .float_type [3, 6148914691236517207]).lens.prod
        ≠ (shape.from_lens .float_type [5]).lens.prod := by
  refine ⟨by decide, by decide, by decide, by decide, by decide⟩

/-- C1 (amended): when `compute_shape` returns a shape for a static input,
standard or not, the 64-bit element counts of the returned shape and of the
input are equal: the products of their sizes are equal modulo `2^64`, and
equal outright when both are below `2^64`. -/
theorem compute_shape_element_count (self : reshape) (input out : shape)
    (hs : input.dynamic = false) (h : self.compute_shape [input] = .ok out) :
    out.elements = input.elements ∧
      out.lens.prod % 2 ^ 64 = input.lens.prod % 2 ^ 64 ∧
      (out.lens.prod < 2 ^ 64 → input.lens.prod < 2 ^ 64 →
        out.lens.prod = input.lens.prod) := by
  have hel : out.elements = input.elements := by
    unfold reshape.compute_shape at h
    simp only [hs] at h
    split at h
    · cases h
    · obtain ⟨input1, h1, h2⟩ := static_compute_shape_elements self [input] _ out h
      simp only [List.cons.injEq, and_true] at h1
      subst h1
      exact h2
  have hmod : out.lens.prod % 2 ^ 64 = input.lens.prod % 2 ^ 64 := hel
  refine ⟨hel, hmod, ?_⟩
  intro ho hi
  rw [Nat.mod_eq_of_lt ho, Nat.mod_eq_of_lt hi] at hmod
  exact hmod

theorem compute_shape_element_count_witness :
    (shape.fixed .float_type [2, 3, 4] [1, 2, 6]).dynamic = false ∧
      (reshape.mk [0, -1]).compute_shape [shape.fixed .float_type [2, 3, 4] [1, 2, 6]]
        = .ok (shape.fixed .float_type [2, 12] [1, 6]) ∧
      (shape.fixed .float_type [2, 12] [1, 6]).lens.prod
        = (shape.fixed .float_type [2, 3, 4] [1, 2, 6]).lens.prod :=
  ⟨by decide, by decide,
    (compute_shape_element_count (reshape.mk [0, -1])
      (shape.fixed .float_type [2, 3, 4] [1, 2, 6])
      (shape.fixed .float_type [2, 12] [1, 6]) (by decide) (by decide)).2.2
      (by decide) (by decide)⟩

/-! ## The standard-layout shortcut -/

theorem calculate_strides_length (R : List Nat) : (calculate_strides R).length = R.length := by
  induction R with
  | nil => rfl
  | cons d ds ih => simp [calculate_strides, ih]

theorem calculate_strides_getElem? (R : List Nat) :
    ∀ (k : Nat), k < R.length → (calculate_strides R)[k]? = some (R.drop (k + 1)).prod := by
  induction R with
  | nil => intro k hk; simp at hk
  | cons d ds ih =>
    intro k hk
    cases k with
    | zero => simp [calculate_strides]
    | succ m =>
      simp only [calculate_strides, List.getElem?_cons_succ, List.drop_succ_cons]
      exact ih m (by simpa using hk)

/-- C6: for a standard input and any target sizes `R`, `reshape_dims` returns
a present shape, with the element type of the input, sizes exactly `R` and the
canonical row-major strides of `R` (the stride of axis `k` is the product of
`R[k+1..]`); the result is the value of the first `return`, so the loop is not
run and no failure is reported. -/
theorem reshape_dims_standard (input : shape) (R : List Nat) (hstd : input.standard = true) :
    reshape_dims input R = .ok (some (shape.fixed input.type R (calculate_strides R))) ∧
      (shape.fixed input.type R (calculate_strides R)).standard = true ∧
      (calculate_strides R).length = R.length ∧
      ∀ (k : Nat), k < R.length → (calculate_strides R)[k]? = some (R.drop (k + 1)).prod := by
  refine ⟨?_, ?_, calculate_strides_length R, calculate_strides_getElem? R⟩
  · simp [reshape_dims, hstd, shape.from_lens]
  · simp [shape.standard]

theorem reshape_dims_standard_witness :
    (shape.fixed .float_type [2, 3, 4] [12, 4, 1]).standard = true ∧
      reshape_dims (shape.fixed .float_type [2, 3, 4] [12, 4, 1]) [4, 3, 2]
        = .ok (some (shape.fixed .float_type [4, 3, 2] [6, 2, 1])) :=
  ⟨by decide, (reshape_dims_standard (shape.fixed .float_type [2, 3, 4] [12, 4, 1]) [4, 3, 2]
    (by decide)).1⟩

/-! ## Placeholders of the static resolver -/

theorem to_size_t_eq_toNat (d : Int) (h0 : 0 ≤ d) (h1 : d < 2 ^ 64) : to_size_t d = d.toNat := by
  unfold to_size_t
  rw [Int.emod_eq_of_lt h0 h1]

/-- What the first loop of `static_compute_shape` leaves at every index. -/
theorem provisional_rdims_spec (dims : List Int) :
    ∀ (idims rdims0 : List Nat), provisional_rdims dims idims = .ok rdims0 →
      rdims0.length = dims.length ∧
      ∀ (k : Nat) (d : Int), dims[k]? = some d →
        rdims0[k]? =
          if d = 0 then idims[k]? else if d = -1 then some 1 else some (to_size_t d) := by
  induction dims with
  | nil =>
    intro idims rdims0 h
    simp [provisional_rdims] at h
    subst h
    simp
  | cons d0 ds ih =>
    intro idims rdims0 h
    simp only [provisional_rdims] at h
    split at h
    · cases h
    · rename_i v hv
      split at h
      · cases h
      · rename_i rest hrest
        simp only [Except.ok.injEq] at h
        subst h
        obtain ⟨hl, hi⟩ := ih idims.tail rest hrest
        refine ⟨by simp [hl], ?_⟩
        intro k d hd
        cases k with
        | zero =>
          simp only [List.getElem?_cons_zero, Option.some.injEq] at hd ⊢
          subst hd
          unfold provisional_dim at hv
          by_cases h0 : d0 = 0
          · simp only [h0, if_true] at hv ⊢
            split at hv
            · cases hv
            · rename_i w hw
              simp only [Except.ok.injEq] at hv
              subst hv
              rw [← List.head?_eq_getElem?]
              exact hw.symm
          · simp only [h0, if_false] at hv ⊢
            by_cases h1 : d0 = -1
            · simp only [h1, if_true] at hv ⊢
              simp only [Except.ok.injEq] at hv
              rw [hv]
            · simp only [h1, if_false] at hv ⊢
              simp only [Except.ok.injEq] at hv
              rw [hv]
        | succ m =>
          simp only [List.getElem?_cons_succ] at hd ⊢
          rw [hi m d hd, List.getElem?_tail]

/-- The product of the provisional target sizes is the product of the
resolved entries other than `-1`. -/
theorem provisional_rdims_prod (dims : List Int) :
    ∀ (idims rdims0 : List Nat), provisional_rdims dims idims = .ok rdims0 →
      (∀ d ∈ dims, -1 ≤ d ∧ d < 2 ^ 64) →
      rdims0.prod = other_entries_product dims idims := by
  induction dims with
  | nil =>
    intro idims rdims0 h _
    simp [provisional_rdims] at h
    subst h
    simp [other_entries_product]
  | cons d0 ds ih =>
    intro idims rdims0 h hr
    simp only [provisional_rdims] at h
    split at h
    · cases h
    · rename_i v hv
      split at h
      · cases h
      · rename_i rest hrest
        simp only [Except.ok.injEq] at h
        subst h
        have hrest1 := ih idims.tail rest hrest (fun d hd => hr d (List.mem_cons_of_mem _ hd))
        have hd0 := hr d0 (List.mem_cons_self _ _)
        simp only [List.prod_cons, other_entries_product, hrest1]
        congr 1
        unfold provisional_dim at hv
        unfold resolved_entry
        by_cases h0 : d0 = 0
        · simp only [h0, if_true] at hv ⊢
          split at hv
          · cases hv
          · rename_i w hw
            simp only [Except.ok.injEq] at hv
            subst hv
            simp [hw]
        · simp only [h0, if_false] at hv ⊢
          by_cases h1 : d0 = -1
          · simp only [h1, if_true] at hv ⊢
            simp only [Except.ok.injEq] at hv
            simp [hv.symm]
          · simp only [h1, if_false] at hv ⊢
            simp only [Except.ok.injEq] at hv
            rw [← hv]
            exact to_size_t_eq_toNat d0 (by omega) hd0.2

theorem fill_missing_no_neg (dims : List Int) :
    ∀ (rs : List Nat) (q : Nat), dims.count (-1) = 0 → fill_missing dims rs q = rs := by
  induction dims with
  | nil => intro rs q _; simp [fill_missing]
  | cons d0 ds ih =>
    intro rs q h
    have hmem : (-1 : Int) ∉ d0 :: ds := List.count_eq_zero.mp h
    have h1 : d0 ≠ -1 := fun hc => hmem (by simp [hc])
    have h2 : ds.count (-1) = 0 :=
      List.count_eq_zero.mpr (fun hc => hmem (List.mem_cons_of_mem _ hc))
    cases rs with
    | nil => simp [fill_missing]
    | cons r rs => simp [fill_missing, h1, ih rs q h2]

/-- With exactly one `-1` in the attribute, whose provisional size is `1`, the
product of the final target sizes is the missing size times the product of
the provisional sizes. -/
theorem fill_missing_prod (dims : List Int) :
    ∀ (rs : List Nat) (q : Nat), dims.length = rs.length → dims.count (-1) = 1 →
      (∀ (k : Nat), dims[k]? = some (-1) → rs[k]? = some 1) →
      (fill_missing dims rs q).prod = q * rs.prod := by
  induction dims with
  | nil => intro rs q _ h; simp at h
  | cons d0 ds ih =>
    intro rs q hlen hc hone
    cases rs with
    | nil => simp at hlen
    | cons r rs =>
      have hlen1 : ds.length = rs.length := by simpa using hlen
      by_cases h1 : d0 = -1
      · subst h1
        have hr : r = 1 := by
          have := hone 0 (by simp)
          simpa using this
        have hc0 : ds.count (-1) = 0 := by
          rw [List.count_cons_self] at hc
          omega
        simp [fill_missing, fill_missing_no_neg ds rs q hc0, hr]
      · have hc1 : ds.count (-1) = 1 := by
          rw [List.count_cons_of_ne (Ne.symm h1)] at hc
          exact hc
        have hone1 : ∀ (k : Nat), ds[k]? = some (-1) → rs[k]? = some 1 := by
          intro k hk
          have := hone (k + 1) (by simpa using hk)
          simpa using this
        simp only [fill_missing, h1, if_false, List.prod_cons, ih rs q hlen1 hc1 hone1]
        ring

theorem dynamic_of_standard (input : shape) (hstd : input.standard = true) :
    input.dynamic = false := by
  cases input with
  | fixed t l st => rfl
  | dyn t dds => simp [shape.standard] at hstd

/-- The static resolver on a standard input, once the first loop has produced
the provisional target sizes `rdims0`. -/
theorem static_compute_shape_standard (self : reshape) (input : shape) (n : Nat)
    (rdims0 : List Nat) (hstd : input.standard = true)
    (hp : provisional_rdims self.dims input.lens = .ok rdims0) :
    self.static_compute_shape [input] n =
      if n > 0 then
        if to_size_t (accumulate_int rdims0 1) = 0 then .error .div_by_zero
        else if (fill_missing self.dims rdims0
            ((input.elements / to_size_t (accumulate_int rdims0 1)) % size_mod)).prod % size_mod
              ≠ input.elements then
          .error (.wrong_number_of_elements
            ((fill_missing self.dims rdims0
              ((input.elements / to_size_t (accumulate_int rdims0 1)) % size_mod)).prod
                % size_mod)
            input.elements)
        else
          .ok (shape.from_lens input.type (fill_missing self.dims rdims0
            ((input.elements / to_size_t (accumulate_int rdims0 1)) % size_mod)))
      else if rdims0.prod % size_mod ≠ input.elements then
        .error (.wrong_number_of_elements (rdims0.prod % size_mod) input.elements)
      else .ok (shape.from_lens input.type rdims0) := by
  have hdyn := dynamic_of_standard input hstd
  unfold reshape.static_compute_shape
  simp only [hdyn, hp, Bool.false_eq_true, if_false]
  by_cases hn : n > 0
  · simp only [hn, if_true]
    by_cases hz : to_size_t (accumulate_int rdims0 1) = 0
    · simp only [hz, if_true]
    · simp only [hz, if_false, reshape_dims, hstd, if_true, elements_from_lens]
  · simp only [hn, if_false, reshape_dims, hstd, if_true, elements_from_lens]

theorem lens_from_lens (t : type_t) (l : List Nat) : (shape.from_lens t l).lens = l := rfl

theorem prod_pos_of_forall_pos (l : List Nat) (h : ∀ x ∈ l, 1 ≤ x) : 1 ≤ l.prod := by
  induction l with
  | nil => simp
  | cons d ds ih =>
    have h1 := h d (List.mem_cons_self _ _)
    have h2 := ih (fun x hx => h x (List.mem_cons_of_mem _ hx))
    rw [List.prod_cons]
    exact Nat.mul_pos h1 h2

/-- The 64-bit guard admits a shape whose inferred size is not `E / P` also
when the 32-bit and the 64-bit value of the product agree: on the standard
input of sizes `[2, 3, 4]` (`E = 24`) with the attribute
`[-1, 6, 3074457345618258603]` the product of the other entries is
`P = 2^64 + 2`, whose low 32 bits and low 64 bits are both `2`; the `-1` slot
receives `12`, and the returned sizes have the product `12 * (2^64 + 2)`,
whose 64-bit element count is `24`. -/
theorem compute_shape_infer_wide_product :
    other_entries_product (reshape.mk [-1, 6, 3074457345618258603]).dims [2, 3, 4]
        = 18446744073709551616 + 2 ∧
      accumulate_int [1, 6, 3074457345618258603] 1 = 2 ∧
      to_size_t (6 * 3074457345618258603) = 2 ∧
      (reshape.mk [-1, 6, 3074457345618258603]).compute_shape
          [shape.from_lens .float_type [2, 3, 4]]
        = .ok (shape.from_lens .float_type [12, 6, 3074457345618258603]) ∧
      24 / (18446744073709551616 + 2) = 0 := by
  refine ⟨by decide, by decide, by decide, by decide, by decide⟩

/-- C5 (failing input): the standard input of sizes `[2, 3, 4]` (`E = 24`)
with the attribute `[-1, 2^32]`. The product `P = 2^32` of the other entries
does not divide `24`, yet no "wrong number of elements" error is raised: the
accumulator of `std::accumulate` is an `int`, the product is cut to its low
32 bits, `0`, and the resolver divides by zero. -/
theorem compute_shape_infer_div_by_zero :
    (shape.from_lens .float_type [2, 3, 4]).standard = true ∧
      other_entries_product (reshape.mk [-1, 4294967296]).dims [2, 3, 4] = 4294967296 ∧
      ¬ (4294967296 ∣ (shape.from_lens .float_type [2, 3, 4]).lens.prod) ∧
      accumulate_int [1, 4294967296] 1 = 0 ∧
      (reshape.mk [-1, 4294967296]).compute_shape [shape.from_lens .float_type [2, 3, 4]]
        = .error .div_by_zero := by
  refine ⟨by decide, by decide, by decide, by decide, by decide⟩

/-! ## The aliasing round trip -/

/-- C2 (counterexample): the transposed input of sizes `[2, 3]` and strides
`[1, 2]` is not standard; for the target `[6]`, of the same element count,
`reshape_dims` returns the sizes `[6]` with the stride `2`. Enumerating the
output visits the offsets `0, 2, 4, 6, 8, 10`; enumerating the input visits
`0, 2, 4, 1, 3, 5`. -/
theorem reshape_dims_transposed_squeeze :
    (shape.fixed .float_type [2, 3] [1, 2]).standard = false ∧
      ([6] : List Nat).prod = ([2, 3] : List Nat).prod ∧
      reshape_dims (shape.fixed .float_type [2, 3] [1, 2]) [6]
        = .ok (some (shape.fixed .float_type [6] [2])) ∧
      offsets [6] [2] = [0, 2, 4, 6, 8, 10] ∧
      offsets [2, 3] [1, 2] = [0, 2, 4, 1, 3, 5] ∧
      offsets [6] [2] ≠ offsets [2, 3] [1, 2] := by
  refine ⟨by decide, by decide, by decide, by decide, by decide, by decide⟩

/-! ### Offsets of products of axes -/

theorem combine_cons (a : Nat) (xs ys : List Nat) :
    combine (a :: xs) ys = ys.map (fun b => a + b) ++ combine xs ys := by
  simp [combine]

theorem combine_append (xs xs1 ys : List Nat) :
    combine (xs ++ xs1) ys = combine xs ys ++ combine xs1 ys := by
  simp [combine]

theorem combine_zero_left (ys : List Nat) : combine [0] ys = ys := by
  simp [combine]

theorem combine_zero_right (xs : List Nat) : combine xs [0] = xs := by
  simp [combine]

theorem combine_map_add (a : Nat) (ys zs : List Nat) :
    combine (ys.map (fun b => a + b)) zs = (combine ys zs).map (fun b => a + b) := by
  simp only [combine, List.flatMap_map, List.map_flatMap, List.map_map]
  congr 1
  funext y
  apply List.map_congr_left
  intro z _
  simp [Nat.add_assoc]

theorem combine_assoc (xs ys zs : List Nat) :
    combine (combine xs ys) zs = combine xs (combine ys zs) := by
  induction xs with
  | nil => simp [combine]
  | cons a xs ih => rw [combine_cons, combine_append, ih, combine_map_add, combine_cons]

theorem offsets_append (A : List Nat) :
    ∀ (SA B SB : List Nat), SA.length = A.length →
      offsets (A ++ B) (SA ++ SB) = combine (offsets A SA) (offsets B SB) := by
  induction A with
  | nil =>
    intro SA B SB h
    have : SA = [] := List.length_eq_zero.mp (by simpa using h)
    subst this
    simp [offsets, combine_zero_left]
  | cons d ds ih =>
    intro SA B SB h
    cases SA with
    | nil => simp at h
    | cons s ss =>
      have h1 : ss.length = ds.length := by simpa using h
      have e : offsets (d :: ds ++ B) (s :: ss ++ SB)
          = combine (axis_offsets d s) (offsets (ds ++ B) (ss ++ SB)) := rfl
      have e1 : offsets (d :: ds) (s :: ss) = combine (axis_offsets d s) (offsets ds ss) := rfl
      rw [e, e1, ih ss B SB h1, combine_assoc]

theorem axis_offsets_one (s : Nat) : axis_offsets 1 s = [0] := by
  simp [axis_offsets, List.range_succ]

theorem offsets_ones (ds : List Nat) :
    ∀ (ss : List Nat), (∀ x ∈ ds, x = 1) → offsets ds ss = [0] := by
  induction ds with
  | nil => intro ss _; rfl
  | cons d ds ih =>
    intro ss h
    have hd : d = 1 := h d (List.mem_cons_self _ _)
    subst hd
    simp only [offsets, axis_offsets_one, combine_zero_left]
    exact ih _ (fun x hx => h x (List.mem_cons_of_mem _ hx))

theorem offsets_single (d s : Nat) : offsets [d] [s] = axis_offsets d s := by
  simp [offsets, combine_zero_right]

/-- One axis of size `d * P` and stride `s` visits the offsets of two axes of
sizes `d` and `P` and strides `P * s` and `s`. -/
theorem axis_offsets_mul (d P s : Nat) :
    axis_offsets (d * P) s = combine (axis_offsets d (P * s)) (axis_offsets P s) := by
  induction d with
  | zero => simp [axis_offsets, combine]
  | succ d ih =>
    have h1 : (d + 1) * P = d * P + P := by ring
    have e1 : axis_offsets (d * P + P) s
        = axis_offsets (d * P) s ++ (axis_offsets P s).map (fun b => d * (P * s) + b) := by
      simp only [axis_offsets, List.range_add, List.map_append, List.map_map]
      congr 1
      apply List.map_congr_left
      intro j _
      simp only [Function.comp]
      ring
    have e2 : axis_offsets (d + 1) (P * s) = axis_offsets d (P * s) ++ [d * (P * s)] := by
      simp [axis_offsets, List.range_succ]
    rw [h1, e1, e2, combine_append, ih]
    congr 1
    simp [combine]

/-- A run of axes laid out contiguously visits the offsets of the single axis
that merges them. -/
theorem mixed_radix (ds : List Nat) (s : Nat) :
    offsets ds (chain_strides ds s) = axis_offsets ds.prod s := by
  induction ds with
  | nil => simp [offsets, axis_offsets_one]
  | cons d ds ih =>
    simp only [offsets, chain_strides, List.headD_cons, List.tail_cons, ih, List.prod_cons]
    exact (axis_offsets_mul d ds.prod s).symm

theorem chain_strides_length (ds : List Nat) (s : Nat) :
    (chain_strides ds s).length = ds.length := by
  induction ds with
  | nil => rfl
  | cons d ds ih => simp [chain_strides, ih]

theorem contiguous_chain (ds : List Nat) :
    ∀ (ss : List Nat) (s : Nat), ss.length = ds.length → ss.getLast? = some s →
      contiguous ds ss = true → ss = chain_strides ds s := by
  induction ds with
  | nil =>
    intro ss s h _ _
    have : ss = [] := List.length_eq_zero.mp (by simpa using h)
    subst this
    rfl
  | cons d0 ds ih =>
    intro ss s hlen hlast hc
    cases ss with
    | nil => simp at hlen
    | cons s0 ss =>
      cases ds with
      | nil =>
        have : ss = [] := List.length_eq_zero.mp (by simpa using hlen)
        subst this
        simp at hlast
        simp [chain_strides, hlast]
      | cons d1 ds1 =>
        cases ss with
        | nil => simp at hlen
        | cons s1 ss1 =>
          simp only [contiguous, Bool.and_eq_true, beq_iff_eq] at hc
          have hlast1 : (s1 :: ss1).getLast? = some s := by
            simpa [List.getLast?_cons_cons] using hlast
          have h1 := ih (s1 :: ss1) s (by simpa using hlen) hlast1 hc.2
          rw [h1]
          simp only [chain_strides, List.cons.injEq, and_true] at h1 ⊢
          rw [hc.1, h1.1, List.prod_cons]
          ring

/-! ### The runs found by `compute_end_dim` -/

theorem unsqueeze_strides_chain (run : List Nat) :
    ∀ (s : Nat) (rs : List Nat), (∀ x ∈ run, 1 ≤ x) →
      unsqueeze_strides run (run.prod * s) rs = .ok (rs ++ chain_strides run s) := by
  induction run with
  | nil => intro s rs _; simp [unsqueeze_strides, chain_strides]
  | cons d run ih =>
    intro s rs h
    have hd : 1 ≤ d := h d (List.mem_cons_self _ _)
    have hd0 : d ≠ 0 := by omega
    have hdiv : (d :: run).prod * s / d = run.prod * s := by
      rw [List.prod_cons, Nat.mul_assoc]
      exact Nat.mul_div_cancel_left _ (by omega)
    simp only [unsqueeze_strides, hd0, if_false, hdiv]
    rw [ih s _ (fun x hx => h x (List.mem_cons_of_mem _ hx))]
    simp [chain_strides]

/-- When the running product of `compute_end_dim` ends on `dim` exactly, the
iterator found closes a run whose sizes multiply to `dim`. -/
theorem find_end_exact (dim : Nat) (l : List Nat) :
    ∀ (x : Nat), (∀ e ∈ l, 1 ≤ e) → x * l.prod < size_mod → 1 ≤ x → x < dim →
      (find_end dim l x).2 = dim →
      (find_end dim l x).1 < l.length ∧ x * (l.take ((find_end dim l x).1 + 1)).prod = dim := by
  induction l with
  | nil =>
    intro x _ _ _ hx h
    simp [find_end] at h
    omega
  | cons d ds ih =>
    intro x hpos hb hx1 hx h
    have hd : 1 ≤ d := hpos d (List.mem_cons_self _ _)
    have hds : ∀ e ∈ ds, 1 ≤ e := fun e he => hpos e (List.mem_cons_of_mem _ he)
    have hP : 1 ≤ ds.prod := prod_pos_of_forall_pos ds hds
    rw [List.prod_cons] at hb
    have hxd : x * d ≤ x * (d * ds.prod) :=
      Nat.mul_le_mul_left x (Nat.le_mul_of_pos_right d hP)
    have hmod : (x * d) % size_mod = x * d := Nat.mod_eq_of_lt (by omega)
    simp only [find_end, hmod] at h ⊢
    by_cases hge : x * d ≥ dim
    · simp only [hge, if_true] at h ⊢
      refine ⟨by simp, ?_⟩
      simp [h]
    · simp only [hge, if_false] at h ⊢
      have hb1 : x * d * ds.prod < size_mod := by
        rw [Nat.mul_assoc]
        exact hb
      obtain ⟨hk, hprod⟩ := ih (x * d) hds hb1 (Nat.mul_pos hx1 hd) (by omega) h
      refine ⟨by simpa using hk, ?_⟩
      rw [List.take_succ_cons, List.prod_cons, ← Nat.mul_assoc]
      exact hprod

theorem compute_end_dim_exact (l : List Nat) (dim : Nat) (hpos : ∀ e ∈ l, 1 ≤ e)
    (hb : l.prod < size_mod) (hd : 1 < dim) (hn : compute_end_dim l dim ≠ 0) :
    compute_end_dim l dim < l.length ∧ (l.take (compute_end_dim l dim + 1)).prod = dim := by
  unfold compute_end_dim at hn ⊢
  by_cases h : (find_end dim l 1).2 = dim
  · simp only [h, ne_eq, not_true_eq_false, if_false] at hn ⊢
    have := find_end_exact dim l 1 hpos (by simpa using hb) (le_refl 1) hd h
    simpa using this
  · simp [h] at hn

theorem prod_drop_le (l : List Nat) (i : Nat) (hpos : ∀ e ∈ l, 1 ≤ e) :
    (l.drop i).prod ≤ l.prod := by
  have h1 := List.prod_take_mul_prod_drop l i
  have h2 : 1 ≤ (l.take i).prod :=
    prod_pos_of_forall_pos _ (fun e he => hpos e (List.mem_of_mem_take he))
  calc (l.drop i).prod = 1 * (l.drop i).prod := (Nat.one_mul _).symm
    _ ≤ (l.take i).prod * (l.drop i).prod := Nat.mul_le_mul_right _ h2
    _ = l.prod := h1

theorem take_succ_of_getElem? (l : List Nat) (i x : Nat) (h : l[i]? = some x) :
    l.take (i + 1) = l.take i ++ [x] := by
  rw [List.take_succ, h]
  rfl

theorem getLast?_take_drop (l : List Nat) (i n x : Nat) (h : l[i + n]? = some x) :
    ((l.drop i).take (n + 1)).getLast? = some x := by
  have h1 : (l.drop i)[n]? = some x := by rw [List.getElem?_drop]; exact h
  rw [take_succ_of_getElem? (l.drop i) n x h1, List.getLast?_concat]

/-! ### The loop of `reshape_dims` on exact runs -/

/-- One iteration of the loop that satisfies `step_exact` keeps `loop_inv` and
advances the input cursor. -/
theorem reshape_step_inv (I S R : List Nat) (st st1 : loop_state)
    (hlen : S.length = I.length) (hI : ∀ x ∈ I, 1 ≤ x) (hR : ∀ x ∈ R, 1 ≤ x)
    (hIb : I.prod < size_mod) (hRb : R.prod < size_mod)
    (hinv : loop_inv I S R st) (hi : st.i < I.length) (hr : st.r < R.length)
    (hex : step_exact I S R st = true) (hstep : reshape_step I S R st = .ok st1) :
    loop_inv I S R st1 ∧ st.i < st1.i := by
  obtain ⟨hl, hile, hrle, hoff, hprod⟩ := hinv
  have hsi : st.i < S.length := by omega
  obtain ⟨idim, hidim⟩ : ∃ idim, I[st.i]? = some idim := ⟨_, List.getElem?_eq_getElem hi⟩
  obtain ⟨rdim, hrdim⟩ : ∃ rdim, R[st.r]? = some rdim := ⟨_, List.getElem?_eq_getElem hr⟩
  obtain ⟨s, hs⟩ : ∃ s, S[st.i]? = some s := ⟨_, List.getElem?_eq_getElem hsi⟩
  have hidim1 : 1 ≤ idim := hI idim (List.getElem?_mem hidim)
  have hrdim1 : 1 ≤ rdim := hR rdim (List.getElem?_mem hrdim)
  have htakeI : (I.take st.i).length = st.i := by rw [List.length_take]; omega
  have htakeS : (S.take st.i).length = st.i := by rw [List.length_take]; omega
  have htakeR : (R.take st.r).length = st.r := by rw [List.length_take]; omega
  have hlenR : st.rstrides.length = (R.take st.r).length := by rw [hl, htakeR]
  have hlenS : (S.take st.i).length = (I.take st.i).length := by rw [htakeS, htakeI]
  unfold reshape_step at hstep
  unfold step_exact at hex
  simp only [hidim, hrdim] at hstep hex
  by_cases heq : rdim = idim
  · simp only [heq, if_true, hs, Except.ok.injEq] at hstep
    subst hstep
    refine ⟨⟨?_, ?_, ?_, ?_, ?_⟩, ?_⟩
    · simp [hl]
    · exact hi
    · exact hr
    · show offsets (R.take (st.r + 1)) (st.rstrides ++ [s])
        = offsets (I.take (st.i + 1)) (S.take (st.i + 1))
      rw [take_succ_of_getElem? R st.r rdim hrdim, take_succ_of_getElem? I st.i idim hidim,
        take_succ_of_getElem? S st.i s hs, offsets_append _ _ _ _ hlenR,
        offsets_append _ _ _ _ hlenS, hoff, heq]
    · show (R.take (st.r + 1)).prod = (I.take (st.i + 1)).prod
      rw [take_succ_of_getElem? R st.r rdim hrdim, take_succ_of_getElem? I st.i idim hidim,
        List.prod_append, List.prod_append, hprod, heq]
    · show st.i < st.i + 1
      omega
  · simp only [heq, if_false] at hstep hex
    by_cases hgt : rdim > idim
    · simp only [hgt, if_true, Bool.and_eq_true, decide_eq_true_eq] at hstep hex
      obtain ⟨hn, hc⟩ := hex
      have hposD : ∀ e ∈ I.drop st.i, 1 ≤ e := fun e he => hI e (List.mem_of_mem_drop he)
      have hbD : (I.drop st.i).prod < size_mod :=
        lt_of_le_of_lt (prod_drop_le I st.i hI) hIb
      obtain ⟨hnlt, hrun⟩ :=
        compute_end_dim_exact (I.drop st.i) rdim hposD hbD (by omega) hn
      generalize compute_end_dim (I.drop st.i) rdim = n at hstep hn hc hnlt hrun
      rw [List.length_drop] at hnlt
      have hsn : st.i + n < S.length := by omega
      obtain ⟨sN, hsN⟩ : ∃ sN, S[st.i + n]? = some sN := ⟨_, List.getElem?_eq_getElem hsn⟩
      simp only [hsN, Except.ok.injEq] at hstep
      subst hstep
      have hrunS : (S.drop st.i).take (n + 1) = chain_strides ((I.drop st.i).take (n + 1)) sN := by
        apply contiguous_chain _ _ sN _ (getLast?_take_drop S st.i n sN hsN) hc
        simp only [List.length_take, List.length_drop]
        omega
      have hblock : offsets ((I.drop st.i).take (n + 1)) ((S.drop st.i).take (n + 1))
          = axis_offsets rdim sN := by
        rw [hrunS, mixed_radix, hrun]
      refine ⟨⟨?_, ?_, ?_, ?_, ?_⟩, ?_⟩
      · simp [hl]
      · show st.i + n + 1 ≤ I.length
        omega
      · exact hr
      · show offsets (R.take (st.r + 1)) (st.rstrides ++ [sN])
          = offsets (I.take (st.i + n + 1)) (S.take (st.i + n + 1))
        rw [take_succ_of_getElem? R st.r rdim hrdim, Nat.add_assoc, List.take_add I,
          List.take_add S, offsets_append _ _ _ _ hlenR, offsets_append _ _ _ _ hlenS, hoff,
          hblock, offsets_single]
      · show (R.take (st.r + 1)).prod = (I.take (st.i + n + 1)).prod
        rw [take_succ_of_getElem? R st.r rdim hrdim, Nat.add_assoc, List.take_add I,
          List.prod_append, List.prod_append, hprod, hrun]
        simp
      · show st.i < st.i + n + 1
        omega
    · simp only [hgt, if_false, Bool.and_eq_true, decide_eq_true_eq, hs, Option.getD_some]
        at hstep hex
      obtain ⟨⟨hir, hn⟩, hov⟩ := hex
      have hlt : idim > rdim := by omega
      have hnotle : ¬ R.length ≤ st.i := by omega
      simp only [hnotle, if_false] at hstep
      have hposD : ∀ e ∈ R.drop st.i, 1 ≤ e := fun e he => hR e (List.mem_of_mem_drop he)
      have hbD : (R.drop st.i).prod < size_mod :=
        lt_of_le_of_lt (prod_drop_le R st.i hR) hRb
      obtain ⟨hnlt, hrun⟩ :=
        compute_end_dim_exact (R.drop st.i) idim hposD hbD (by omega) hn
      generalize compute_end_dim (R.drop st.i) idim = n at hstep hn hnlt hrun
      rw [List.length_drop] at hnlt
      have hmod : (s * idim) % size_mod = s * idim := Nat.mod_eq_of_lt hov
      have hstride : s * idim = ((R.drop st.i).take (n + 1)).prod * s := by
        rw [hrun, Nat.mul_comm]
      have hposRun : ∀ x ∈ (R.drop st.i).take (n + 1), 1 ≤ x :=
        fun x hx => hposD x (List.mem_of_mem_take hx)
      rw [hmod, hstride, unsqueeze_strides_chain _ s st.rstrides hposRun] at hstep
      simp only [Except.ok.injEq] at hstep
      subst hstep
      have hrunlen : ((R.drop st.i).take (n + 1)).length = n + 1 := by
        simp only [List.length_take, List.length_drop]
        omega
      refine ⟨⟨?_, ?_, ?_, ?_, ?_⟩, ?_⟩
      · show (st.rstrides ++ chain_strides ((R.drop st.i).take (n + 1)) s).length
          = st.r + n + 1
        rw [List.length_append, chain_strides_length, hrunlen, hl]
        omega
      · exact hi
      · show st.r + n + 1 ≤ R.length
        omega
      · show offsets (R.take (st.r + n + 1))
            (st.rstrides ++ chain_strides ((R.drop st.i).take (n + 1)) s)
          = offsets (I.take (st.i + 1)) (S.take (st.i + 1))
        rw [take_succ_of_getElem? I st.i idim hidim, take_succ_of_getElem? S st.i s hs,
          Nat.add_assoc, List.take_add R, ← hir, offsets_append _ _ _ _ (by rw [hir]; exact hlenR),
          offsets_append _ _ _ _ hlenS, mixed_radix, hrun, offsets_single, ← hoff, hir]
      · show (R.take (st.r + n + 1)).prod = (I.take (st.i + 1)).prod
        rw [take_succ_of_getElem? I st.i idim hidim, Nat.add_assoc, List.take_add R, ← hir,
          List.prod_append, List.prod_append, hrun, ← hprod, hir]
        simp
      · show st.i < st.i + 1
        omega

/-- The loop of `reshape_dims`, run on steps that satisfy `step_exact`, keeps
`loop_inv`; with fuel for every remaining input axis it stops because its
condition fails. -/
theorem reshape_loop_inv (I S R : List Nat)
    (hlen : S.length = I.length) (hI : ∀ x ∈ I, 1 ≤ x) (hR : ∀ x ∈ R, 1 ≤ x)
    (hIb : I.prod < size_mod) (hRb : R.prod < size_mod) :
    ∀ (fuel : Nat) (st st2 : loop_state), loop_inv I S R st →
      steps_exact I S R fuel st = true → reshape_loop I S R fuel st = .ok st2 →
      I.length ≤ st.i + fuel →
      loop_inv I S R st2 ∧ ¬ (st2.i < I.length ∧ st2.r < R.length) := by
  intro fuel
  induction fuel with
  | zero =>
    intro st st2 hinv _ hloop hfuel
    simp only [reshape_loop, Except.ok.injEq] at hloop
    subst hloop
    exact ⟨hinv, by omega⟩
  | succ fuel ih =>
    intro st st2 hinv hex hloop hfuel
    by_cases hcond : st.i < I.length ∧ st.r < R.length
    · simp only [reshape_loop, steps_exact, hcond, and_self, if_true, Bool.and_eq_true]
        at hloop hex
      rcases hstep : reshape_step I S R st with e | st1
      · simp [hstep] at hloop
      · simp only [hstep] at hloop hex
        obtain ⟨hinv1, hadv⟩ := reshape_step_inv I S R st st1 hlen hI hR hIb hRb hinv
          hcond.1 hcond.2 hex.1 hstep
        exact ih st1 st2 hinv1 hex.2 hloop (by omega)
    · simp only [reshape_loop, hcond, if_false, Except.ok.injEq] at hloop
      subst hloop
      exact ⟨hinv, hcond⟩

theorem ones_of_prod_eq_one (l : List Nat) (hpos : ∀ x ∈ l, 1 ≤ x) (h : l.prod = 1) :
    ∀ x ∈ l, x = 1 := by
  induction l with
  | nil => intro x hx; simp at hx
  | cons d ds ih =>
    have hd : 1 ≤ d := hpos d (List.mem_cons_self _ _)
    have hds : ∀ x ∈ ds, 1 ≤ x := fun x hx => hpos x (List.mem_cons_of_mem _ hx)
    have hP : 1 ≤ ds.prod := prod_pos_of_forall_pos ds hds
    rw [List.prod_cons] at h
    have hd1 : d = 1 := by
      have : d ≤ d * ds.prod := Nat.le_mul_of_pos_right d hP
      omega
    have hP1 : ds.prod = 1 := by
      rw [hd1, Nat.one_mul] at h
      exact h
    intro x hx
    rcases List.mem_cons.mp hx with hx1 | hx1
    · rw [hx1, hd1]
    · exact ih hds hP1 x hx1

theorem pos_of_prod_pos (l : List Nat) (h : 1 ≤ l.prod) : ∀ x ∈ l, 1 ≤ x := by
  intro x hx
  by_contra hc
  have hx0 : x = 0 := by omega
  subst hx0
  have := List.prod_eq_zero hx
  omega

theorem trailing_strides_append (rdims rstrides : List Nat) :
    ∃ X, trailing_strides rdims rstrides = rstrides ++ X := by
  unfold trailing_strides
  split
  · exact ⟨_, rfl⟩
  · exact ⟨[], by simp⟩

/-- C2 (as amended): for a non-standard input (sizes `I`, all at least `1`,
strides `S`, one per size, element count below `2^64`) and target sizes `R`
with the same product, when every iteration of the loop of `reshape_dims` is
exact (an equal step; a squeeze step whose run is found by `compute_end_dim`
and is laid out contiguously; an unsqueeze step taken with both cursors at
the same position, whose run is found by `compute_end_dim` and whose product
`istrides[i] * idim` does not overflow), the shape returned has the sizes `R`
and visits, in row-major order, the same sequence of storage offsets as the
input. -/
theorem reshape_dims_round_trip (t : type_t) (I S R : List Nat) (out : shape)
    (hns : (shape.fixed t I S).standard = false) (hlen : S.length = I.length)
    (hI : ∀ x ∈ I, 1 ≤ x) (hprod : R.prod = I.prod) (hIb : I.prod < 2 ^ 64)
    (hex : steps_exact I S R I.length ⟨0, 0, []⟩ = true)
    (h : reshape_dims (shape.fixed t I S) R = .ok (some out)) :
    out.lens = R ∧ offsets out.lens out.strides = offsets I S := by
  have hIpos : 1 ≤ I.prod := prod_pos_of_forall_pos I hI
  have hR : ∀ x ∈ R, 1 ≤ x := pos_of_prod_pos R (by omega)
  have hIb1 : I.prod < size_mod := by unfold size_mod; exact hIb
  have hRb1 : R.prod < size_mod := by rw [hprod]; exact hIb1
  unfold reshape_dims at h
  simp only [hns, Bool.false_eq_true, if_false, shape.lens, shape.strides, shape.type] at h
  rcases hloop : reshape_loop I S R I.length ⟨0, 0, []⟩ with e | st2
  · simp [hloop] at h
  · simp only [hloop, Except.ok.injEq, Option.some.injEq] at h
    subst h
    have hinit : loop_inv I S R ⟨0, 0, []⟩ := by
      refine ⟨rfl, Nat.zero_le _, Nat.zero_le _, ?_, ?_⟩ <;> simp [offsets]
    obtain ⟨⟨hl, hile, hrle, hoff, hpr⟩, hexit⟩ :=
      reshape_loop_inv I S R hlen hI hR hIb1 hRb1 I.length ⟨0, 0, []⟩ st2 hinit hex hloop
        (by simp)
    refine ⟨rfl, ?_⟩
    show offsets R (trailing_strides R st2.rstrides) = offsets I S
    obtain ⟨X, hX⟩ := trailing_strides_append R st2.rstrides
    have htakeR : (R.take st2.r).length = st2.r := by rw [List.length_take]; omega
    have htakeI : (I.take st2.i).length = st2.i := by rw [List.length_take]; omega
    have htakeS : (S.take st2.i).length = st2.i := by rw [List.length_take]; omega
    have hpR := List.prod_take_mul_prod_drop R st2.r
    have hpI := List.prod_take_mul_prod_drop I st2.i
    have hp1 : 1 ≤ (I.take st2.i).prod :=
      prod_pos_of_forall_pos _ (fun e he => hI e (List.mem_of_mem_take he))
    have hab : (R.drop st2.r).prod = (I.drop st2.i).prod := by
      rw [hpr, hprod, ← hpI] at hpR
      exact Nat.eq_of_mul_eq_mul_left hp1 hpR
    have hone : (R.drop st2.r).prod = 1 ∧ (I.drop st2.i).prod = 1 := by
      by_cases hc : st2.i < I.length
      · have hr : R.length ≤ st2.r := by omega
        have : (R.drop st2.r).prod = 1 := by rw [List.drop_eq_nil_of_le hr]; rfl
        exact ⟨this, by rw [← hab]; exact this⟩
      · have hi : I.length ≤ st2.i := by omega
        have : (I.drop st2.i).prod = 1 := by rw [List.drop_eq_nil_of_le hi]; rfl
        exact ⟨by rw [hab]; exact this, this⟩
    have honesR : ∀ x ∈ R.drop st2.r, x = 1 :=
      ones_of_prod_eq_one _ (fun e he => hR e (List.mem_of_mem_drop he)) hone.1
    have honesI : ∀ x ∈ I.drop st2.i, x = 1 :=
      ones_of_prod_eq_one _ (fun e he => hI e (List.mem_of_mem_drop he)) hone.2
    have eR : offsets R (st2.rstrides ++ X) = offsets (R.take st2.r) st2.rstrides := by
      conv_lhs => rw [← List.take_append_drop st2.r R]
      rw [offsets_append _ _ _ _ (by rw [hl, htakeR]), offsets_ones _ _ honesR,
        combine_zero_right]
    have eI : offsets I S = offsets (I.take st2.i) (S.take st2.i) := by
      conv_lhs => rw [← List.take_append_drop st2.i I, ← List.take_append_drop st2.i S]
      rw [offsets_append _ _ _ _ (by rw [htakeS, htakeI]), offsets_ones _ _ honesI,
        combine_zero_right]
    rw [hX, eR, eI, hoff]

theorem reshape_dims_round_trip_witness :
    reshape_dims (shape.fixed .float_type [4, 2, 3] [12, 6, 2]) [2, 2, 6]
        = .ok (some (shape.fixed .float_type [2, 2, 6] [24, 12, 2])) ∧
      offsets (shape.fixed .float_type [2, 2, 6] [24, 12, 2]).lens
          (shape.fixed .float_type [2, 2, 6] [24, 12, 2]).strides
        = offsets [4, 2, 3] [12, 6, 2] :=
  ⟨by decide,
    (reshape_dims_round_trip .float_type [4, 2, 3] [12, 6, 2] [2, 2, 6]
      (shape.fixed .float_type [2, 2, 6] [24, 12, 2]) (by decide) (by decide) (by decide)
      (by decide) (by decide) (by decide) (by decide)).2⟩

/-! ### Termination of the loop of `reshape_dims` -/

/-- Every iteration of the loop of `reshape_dims` advances the input cursor. -/
theorem reshape_step_advances (I S R : List Nat) (st st1 : loop_state)
    (hstep : reshape_step I S R st = .ok st1) : st.i < st1.i := by
  unfold reshape_step at hstep
  split at hstep
  · split at hstep
    · split at hstep
      · cases hstep
      · simp only [Except.ok.injEq] at hstep
        subst hstep
        exact Nat.lt_succ_self _
    · split at hstep
      · dsimp only at hstep
        split at hstep
        · cases hstep
        · simp only [Except.ok.injEq] at hstep
          subst hstep
          show st.i < st.i + _ + 1
          omega
      · split at hstep
        · cases hstep
        · dsimp only at hstep
          split at hstep
          · cases hstep
          · split at hstep
            · cases hstep
            · simp only [Except.ok.injEq] at hstep
              subst hstep
              exact Nat.lt_succ_self _
  · cases hstep

/-- The fuel `idims.length` is enough: when the loop of the embedding returns
a state, the condition of the `while` is false in that state. -/
theorem reshape_loop_exits (I S R : List Nat) :
    ∀ (fuel : Nat) (st st2 : loop_state), reshape_loop I S R fuel st = .ok st2 →
      I.length ≤ st.i + fuel → ¬ (st2.i < I.length ∧ st2.r < R.length) := by
  intro fuel
  induction fuel with
  | zero =>
    intro st st2 hloop hfuel
    simp only [reshape_loop, Except.ok.injEq] at hloop
    subst hloop
    omega
  | succ fuel ih =>
    intro st st2 hloop hfuel
    by_cases hcond : st.i < I.length ∧ st.r < R.length
    · simp only [reshape_loop, hcond, and_self, if_true] at hloop
      rcases hstep : reshape_step I S R st with e | st1
      · simp [hstep] at hloop
      · simp only [hstep] at hloop
        have hadv := reshape_step_advances I S R st st1 hstep
        exact ih st1 st2 hloop (by omega)
    · simp only [reshape_loop, hcond, if_false, Except.ok.injEq] at hloop
      subst hloop
      exact hcond

/-! ### Inference of the `-1` entry when the product fits an `int` -/

theorem to_int64_of_lt (n : Nat) (h : n < 2 ^ 63) : to_int64 n = (n : Int) := by
  unfold to_int64
  have h1 : n % 2 ^ 64 = n := Nat.mod_eq_of_lt (by omega)
  rw [h1, if_pos h]

theorem to_int32_of_range (x : Int) (h0 : 0 ≤ x) (h1 : x < 2 ^ 31) : to_int32 x = x := by
  unfold to_int32
  have h2 : x % 2 ^ 32 = x := Int.emod_eq_of_lt h0 (by omega)
  rw [h2, if_pos h1]

/-- The `int` accumulator of `std::accumulate` holds the exact product as long
as the product stays below `2^31`. -/
theorem accumulate_int_exact (l : List Nat) :
    ∀ (acc : Nat), 1 ≤ acc → (∀ x ∈ l, 1 ≤ x) → acc * l.prod < 2 ^ 31 →
      accumulate_int l (acc : Int) = ((acc * l.prod : Nat) : Int) := by
  induction l with
  | nil => intro acc _ _ _; simp [accumulate_int]
  | cons d ds ih =>
    intro acc hacc hpos hb
    have hd : 1 ≤ d := hpos d (List.mem_cons_self _ _)
    have hds : ∀ x ∈ ds, 1 ≤ x := fun x hx => hpos x (List.mem_cons_of_mem _ hx)
    have hP : 1 ≤ ds.prod := prod_pos_of_forall_pos ds hds
    rw [List.prod_cons] at hb
    have hb1 : acc * d * ds.prod < 2 ^ 31 := by rw [Nat.mul_assoc]; exact hb
    have hadle : acc * d ≤ acc * d * ds.prod := Nat.le_mul_of_pos_right _ hP
    have hdle : d ≤ acc * d := Nat.le_mul_of_pos_left _ hacc
    have h64 : to_int64 d = (d : Int) := to_int64_of_lt d (by omega)
    have h32 : to_int32 ((acc : Int) * (d : Int)) = ((acc * d : Nat) : Int) := by
      rw [to_int32_of_range]
      · push_cast
        rfl
      · positivity
      · have : ((acc * d : Nat) : Int) < 2 ^ 31 := by exact_mod_cast (by omega : acc * d < 2 ^ 31)
        simpa using this
    simp only [accumulate_int, h64, h32]
    rw [ih (acc * d) (Nat.mul_pos hacc hd) hds hb1, List.prod_cons, Nat.mul_assoc]

/-- The first loop of `static_compute_shape` reads inside `idims` when every
`0` of the attribute sits at an index below the rank of the input. -/
theorem provisional_rdims_total (dims : List Int) :
    ∀ (idims : List Nat),
      (∀ (k : Nat) (d : Int), dims[k]? = some d → d = 0 → k < idims.length) →
      ∃ rdims0, provisional_rdims dims idims = .ok rdims0 := by
  induction dims with
  | nil => intro idims _; exact ⟨[], rfl⟩
  | cons d0 ds ih =>
    intro idims h
    obtain ⟨rest, hrest⟩ := ih idims.tail (by
      intro k d hk hd
      have := h (k + 1) d (by simpa using hk) hd
      rw [List.length_tail]
      omega)
    obtain ⟨v, hv⟩ : ∃ v, provisional_dim d0 idims.head? = .ok v := by
      unfold provisional_dim
      by_cases h0 : d0 = 0
      · have hlt := h 0 d0 (by simp) h0
        cases idims with
        | nil => simp at hlt
        | cons x xs => exact ⟨x, by simp [h0]⟩
      · by_cases h1 : d0 = -1
        · exact ⟨1, by simp [h0, h1]⟩
        · exact ⟨to_size_t d0, by simp [h0, h1]⟩
    exact ⟨v :: rest, by simp [provisional_rdims, hv, hrest]⟩

/-- On a standard input with sizes at least `1` and element count `E` below
`2^31`, and an attribute with exactly one `-1` whose other entries are
positive or a `0` at an index below the rank, `compute_shape` returns a shape
whose sizes have a product below `2^64` if and only if the product `P` of the
other resolved entries divides `E`. -/
theorem compute_shape_infer_iff_divides (self : reshape) (input : shape)
    (hstd : input.standard = true)
    (hI : ∀ x ∈ input.lens, 1 ≤ x) (hE : input.lens.prod < 2 ^ 31)
    (hone : self.dims.count (-1) = 1)
    (hent : ∀ (k : Nat) (d : Int), self.dims[k]? = some d → d ≠ -1 →
      (0 < d ∧ d < 2 ^ 63) ∨ (d = 0 ∧ k < input.lens.length)) :
    (∃ out, self.compute_shape [input] = .ok out ∧ out.lens.prod < 2 ^ 64) ↔
      other_entries_product self.dims input.lens ∣ input.lens.prod := by
  have hdyn := dynamic_of_standard input hstd
  have hrange : ∀ d ∈ self.dims, -1 ≤ d ∧ d < 2 ^ 64 := by
    intro d hd
    obtain ⟨k, hk⟩ := List.mem_iff_getElem?.mp hd
    by_cases h1 : d = -1
    · subst h1
      constructor <;> norm_num
    · rcases hent k d hk h1 with ⟨ha, hb⟩ | ⟨ha, _⟩
      · constructor <;> omega
      · subst ha
        constructor <;> norm_num
  obtain ⟨rdims0, hp⟩ := provisional_rdims_total self.dims input.lens (by
    intro k d hk hd
    rcases hent k d hk (by omega) with ⟨ha, _⟩ | ⟨_, hb⟩
    · omega
    · exact hb)
  obtain ⟨hl0, hi0⟩ := provisional_rdims_spec self.dims input.lens rdims0 hp
  have hP := provisional_rdims_prod self.dims input.lens rdims0 hp hrange
  have hEpos := prod_pos_of_forall_pos input.lens hI
  have hcs : self.compute_shape [input] = self.static_compute_shape [input] 1 := by
    unfold reshape.compute_shape
    simp [hone, hdyn]
  have honeslot : ∀ (k : Nat), self.dims[k]? = some (-1) → rdims0[k]? = some 1 := by
    intro k hk
    rw [hi0 k (-1) hk]
    simp
  have hfill : ∀ q : Nat, (fill_missing self.dims rdims0 q).prod
      = q * other_entries_product self.dims input.lens := by
    intro q
    rw [fill_missing_prod self.dims rdims0 q hl0.symm hone honeslot, hP]
  have hE64 : ∀ c : Nat, input.lens.prod / c % size_mod = input.lens.prod / c := by
    intro c
    apply Nat.mod_eq_of_lt
    have : input.lens.prod / c ≤ input.lens.prod := Nat.div_le_self _ _
    unfold size_mod
    omega
  rw [hcs, static_compute_shape_standard self input 1 rdims0 hstd hp,
    elements_of_lt input (by omega)]
  simp only [gt_iff_lt, Nat.lt_one_iff, Nat.one_pos, if_true, hfill, hE64]
  constructor
  · rintro ⟨out, hout, hnowrap⟩
    split at hout
    · cases hout
    · split at hout
      · cases hout
      · rename_i hguard
        have hg := not_not.mp hguard
        simp only [Except.ok.injEq] at hout
        subst hout
        rw [lens_from_lens, hfill] at hnowrap
        have hnowrap1 : input.lens.prod / to_size_t (accumulate_int rdims0 1)
            * other_entries_product self.dims input.lens < size_mod := hnowrap
        rw [Nat.mod_eq_of_lt hnowrap1] at hg
        exact Dvd.intro_left _ hg
  · intro hdvd
    have hPle : other_entries_product self.dims input.lens ≤ input.lens.prod :=
      Nat.le_of_dvd hEpos hdvd
    have hPpos : 1 ≤ other_entries_product self.dims input.lens := by
      rcases Nat.eq_zero_or_pos (other_entries_product self.dims input.lens) with hz | hz
      · rw [hz] at hdvd
        have := Nat.eq_zero_of_zero_dvd hdvd
        omega
      · exact hz
    have hpos0 : ∀ x ∈ rdims0, 1 ≤ x := by
      apply pos_of_prod_pos
      rw [hP]
      exact hPpos
    have hacc : accumulate_int rdims0 1 = ((other_entries_product self.dims input.lens : Nat) : Int) := by
      have := accumulate_int_exact rdims0 1 (le_refl 1) hpos0 (by rw [Nat.one_mul, hP]; omega)
      rw [Nat.one_mul, hP] at this
      exact_mod_cast this
    have hdiv : to_size_t (accumulate_int rdims0 1)
        = other_entries_product self.dims input.lens := by
      rw [hacc, to_size_t_eq_toNat _ (by positivity) (by
        have : ((other_entries_product self.dims input.lens : Nat) : Int) < 2 ^ 31 := by
          exact_mod_cast (by omega : other_entries_product self.dims input.lens < 2 ^ 31)
        omega)]
      simp
    have hwrap : input.lens.prod % size_mod = input.lens.prod := by
      apply Nat.mod_eq_of_lt
      unfold size_mod
      omega
    have hne : other_entries_product self.dims input.lens ≠ 0 := by omega
    rw [hdiv, Nat.div_mul_cancel hdvd, hwrap]
    refine ⟨shape.from_lens input.type (fill_missing self.dims rdims0
      (input.lens.prod / other_entries_product self.dims input.lens)), by simp [hne], ?_⟩
    rw [lens_from_lens, hfill, Nat.div_mul_cancel hdvd]
    omega

/-! ## The zero placeholder in the dynamic resolver -/

/-- C11 (failing input): the input (fixed 3, range [1,8]) with the attribute
`[0, -1]` has exactly one non-fixed axis, positive fixed sizes, a `-1` at the
non-fixed axis and a `0` at the fixed axis. `dyn_compute_shape` multiplies the
`0` into `num_dims_ele` and fails with "Number of fixed elements must match.
Input: 3 Output: 0"; it does not copy the input size. The static resolver does
copy it: the static input `[3, 8]` with the same attribute resolves to
`[3, 8]`. -/
theorem dyn_compute_shape_zero_at_fixed_axis :
    num_non_fixed [⟨3, 3⟩, ⟨1, 8⟩] = 1 ∧
      (reshape.mk [0, -1]).dyn_compute_shape (.dyn .float_type [⟨3, 3⟩, ⟨1, 8⟩])
        = .error (.fixed_elements_mismatch 3 0) ∧
      (reshape.mk [0, -1]).compute_shape [.dyn .float_type [⟨3, 3⟩, ⟨1, 8⟩]]
        = .error (.fixed_elements_mismatch 3 0) ∧
      (reshape.mk [0, -1]).compute_shape [shape.from_lens .float_type [3, 8]]
        = .ok (shape.from_lens .float_type [3, 8]) := by
  refine ⟨by decide, by decide, by decide, by decide⟩

/-! ## Inference with a product of 32 bits or more -/

/-- C20 (failing input): the standard input of sizes `[2^31]` (`E = 2^31`)
with the attribute `[-1, 2^31]` (`P = 2^31`, which divides `E`; both are
below `2^63`). The `int` accumulator of `std::accumulate` holds `-2^31`, not
`P`; converted to `std::size_t` for the division it is `2^64 - 2^31`, the
missing size becomes `0` instead of `E / P = 1`, and `compute_shape` fails
with "Wrong number of elements". -/
theorem compute_shape_infer_int_accumulator :
    (shape.from_lens .float_type [2147483648]).standard = true ∧
      other_entries_product (reshape.mk [-1, 2147483648]).dims [2147483648] = 2147483648 ∧
      (2147483648 ∣ (shape.from_lens .float_type [2147483648]).lens.prod) ∧
      accumulate_int [1, 2147483648] 1 = -2147483648 ∧
      (shape.from_lens .float_type [2147483648]).elements
        / to_size_t (accumulate_int [1, 2147483648] 1) = 0 ∧
      (reshape.mk [-1, 2147483648]).compute_shape [shape.from_lens .float_type [2147483648]]
        = .error (.wrong_number_of_elements 0 2147483648) := by
  refine ⟨by decide, by decide, by decide, by decide, by decide, by decide⟩

/-! ## The unsqueeze branch away from the diagonal -/

/-- C16 (failing input): the non-standard input of sizes `[2, 3, 4]` and
strides `[24, 8, 2]` with the target `[6, 2, 2]`. The first step squeezes
`[2, 3]` into `6`, which leaves the cursors at `i = 2`, `r = 1`. There
`R[1] = 2 < I[2] = 4` and the run `R[1..2] = [2, 2]` has product `4`, but the
scan starts at `rdims.begin() + i`, finds no run, appends the single stride
`4` and advances `r` to `2` only; the result has strides `[8, 4, 4]`, not
`[8, 4, 2]`. -/
theorem reshape_dims_unsqueeze_off_diagonal :
    (shape.fixed .float_type [2, 3, 4] [24, 8, 2]).standard = false ∧
      reshape_loop [2, 3, 4] [24, 8, 2] [6, 2, 2] 1 ⟨0, 0, []⟩ = .ok ⟨2, 1, [8]⟩ ∧
      (([6, 2, 2] : List Nat).drop 1).take 2 = [2, 2] ∧
      compute_end_dim (([6, 2, 2] : List Nat).drop 2) 4 = 0 ∧
      reshape_step [2, 3, 4] [24, 8, 2] [6, 2, 2] ⟨2, 1, [8]⟩ = .ok ⟨3, 2, [8, 4]⟩ ∧
      reshape_dims (shape.fixed .float_type [2, 3, 4] [24, 8, 2]) [6, 2, 2]
        = .ok (some (shape.fixed .float_type [6, 2, 2] [8, 4, 4])) := by
  refine ⟨by decide, by decide, by decide, by decide, by decide, by decide⟩

/-- C19 (failing input): the non-standard input of sizes `[1, 2, 2, 6]` and
strides `[48, 24, 12, 2]` with the target `[2, 4, 3]`, of the same element
count `24`. Two squeeze steps leave the cursors at `i = 3`, `r = 2`. There
`R[2] = 3 < I[3] = 6`, and the unsqueeze branch starts its scan at
`rdims.begin() + 3`, the end of `rdims`: the `std::for_each` over
`[start, it + 1)` reads one element past the end. -/
theorem reshape_dims_unsqueeze_scan_past_end :
    (shape.fixed .float_type [1, 2, 2, 6] [48, 24, 12, 2]).standard = false ∧
      ([2, 4, 3] : List Nat).prod = ([1, 2, 2, 6] : List Nat).prod ∧
      reshape_loop [1, 2, 2, 6] [48, 24, 12, 2] [2, 4, 3] 2 ⟨0, 0, []⟩
        = .ok ⟨3, 2, [24, 12]⟩ ∧
      ([2, 4, 3] : List Nat).length ≤ 3 ∧
      reshape_step [1, 2, 2, 6] [48, 24, 12, 2] [2, 4, 3] ⟨3, 2, [24, 12]⟩
        = .error .out_of_range ∧
      reshape_dims (shape.fixed .float_type [1, 2, 2, 6] [48, 24, 12, 2]) [2, 4, 3]
        = .error .out_of_range := by
  refine ⟨by decide, by decide, by decide, by decide, by decide, by decide⟩

/-! ## The squeeze branch -/

/-- C12 (counterexample): the non-standard input of sizes `[2, 3, 4]` and
strides `[24, 8, 2]` with the target `[2, 12]`. At the second step
`R[1] = 12 > I[1] = 3` and the run `I[1..2] = [3, 4]`, of product `12`, ends
on the last input axis. `reshape_dims` returns a shape, with the stride of
the last input axis for the merged axis. -/
theorem reshape_dims_full_consumption_squeeze :
    (shape.fixed .float_type [2, 3, 4] [24, 8, 2]).standard = false ∧
      reshape_loop [2, 3, 4] [24, 8, 2] [2, 12] 1 ⟨0, 0, []⟩ = .ok ⟨1, 1, [24]⟩ ∧
      (([2, 3, 4] : List Nat).drop 1).prod = 12 ∧
      1 + compute_end_dim (([2, 3, 4] : List Nat).drop 1) 12 + 1 = ([2, 3, 4] : List Nat).length ∧
      reshape_dims (shape.fixed .float_type [2, 3, 4] [24, 8, 2]) [2, 12]
        = .ok (some (shape.fixed .float_type [2, 12] [24, 2])) := by
  refine ⟨by decide, by decide, by decide, by decide, by decide⟩

/-- C15 (counterexample): the non-standard input of sizes `[2, 3, 4]` and
strides `S = [24, 8, 2]` with the target `[6, 4]`. At the first step
`R[0] = 6 > I[0] = 2` and the run `I[0..1] = [2, 3]` has product `6`
(`k = 1`). The stride given to output axis `0` is `S[1] = 8`, the stride of
the last axis of the run, not `S[2] = 2`. -/
theorem reshape_dims_squeeze_takes_last_stride :
    (shape.fixed .float_type [2, 3, 4] [24, 8, 2]).standard = false ∧
      (([2, 3, 4] : List Nat).take 2).prod = 6 ∧
      reshape_step [2, 3, 4] [24, 8, 2] [6, 4] ⟨0, 0, []⟩ = .ok ⟨2, 1, [8]⟩ ∧
      reshape_dims (shape.fixed .float_type [2, 3, 4] [24, 8, 2]) [6, 4]
        = .ok (some (shape.fixed .float_type [6, 4] [8, 2])) ∧
      ([24, 8, 2] : List Nat)[1]? = some 8 ∧ ([24, 8, 2] : List Nat)[2]? = some 2 ∧
      (8 : Nat) ≠ 2 := by
  refine ⟨by decide, by decide, by decide, by decide, by decide, by decide, by decide⟩

/-! ## Reads of the input strides -/

theorem unsqueeze_strides_not_out_of_range (run : List Nat) :
    ∀ (stride : Nat) (rs : List Nat),
      unsqueeze_strides run stride rs ≠ .error .out_of_range := by
  induction run with
  | nil => intro stride rs h; simp [unsqueeze_strides] at h
  | cons d run ih =>
    intro stride rs h
    simp only [unsqueeze_strides] at h
    split at h
    · cases h
    · exact ih _ _ h

/-- The iterator found by the `std::find_if` of `compute_end_dim` lies inside
the range, or it is the end of the range and the running product stayed
below `dim`. -/
theorem find_end_fst (dim : Nat) (l : List Nat) :
    ∀ (x : Nat), (find_end dim l x).1 < l.length ∨
      ((find_end dim l x).1 = l.length ∧ (l ≠ [] → (find_end dim l x).2 < dim)) := by
  induction l with
  | nil => intro x; right; simp [find_end]
  | cons d ds ih =>
    intro x
    simp only [find_end]
    by_cases hge : x * d % size_mod ≥ dim
    · left
      simp [hge]
    · simp only [hge, if_false]
      rcases ih (x * d % size_mod) with h | ⟨h1, h2⟩
      · left
        simpa using h
      · right
        refine ⟨by simp [h1], fun _ => ?_⟩
        cases ds with
        | nil =>
          simp only [find_end]
          omega
        | cons e es => exact h2 (by simp)

/-- The iterator returned by `compute_end_dim` on a non-empty range can be
dereferenced. -/
theorem compute_end_dim_lt (l : List Nat) (dim : Nat) (hne : l ≠ []) :
    compute_end_dim l dim < l.length := by
  have hpos : 0 < l.length := List.length_pos.mpr hne
  unfold compute_end_dim
  by_cases h : (find_end dim l 1).2 = dim
  · simp only [h, ne_eq, not_true_eq_false, if_false]
    rcases find_end_fst dim l 1 with h1 | ⟨_, h2⟩
    · exact h1
    · have := h2 hne
      omega
  · simp only [h, ne_eq, not_false_eq_true, if_true]
    exact hpos

/-- C13: for strides `S` with one entry per input size, at every iteration of
the loop of `reshape_dims` (the loop condition holds at the cursors `i`, `r`)
every read of the input strides is in bounds: `istrides[i]` of the equal and
unsqueeze branches, and `istrides[i + n]` of the squeeze branch, where
`n = compute_end_dim(..) - start`, so the assertion `(i + n) <= istrides.size()`
holds. The iteration ends with "out of range" only for a read of `rdims` in
the unsqueeze branch, and the equal and squeeze branches always produce the
next state. -/
theorem reshape_step_stride_reads (I S R : List Nat) (st : loop_state) (idim rdim : Nat)
    (hlen : S.length = I.length) (hidim : I[st.i]? = some idim)
    (hrdim : R[st.r]? = some rdim) :
    st.i < S.length ∧
      st.i + compute_end_dim (I.drop st.i) rdim ≤ S.length ∧
      st.i + compute_end_dim (I.drop st.i) rdim < S.length ∧
      (reshape_step I S R st = .error .out_of_range → rdim < idim ∧ R.length ≤ st.i) ∧
      (rdim ≥ idim → ∃ st1, reshape_step I S R st = .ok st1) := by
  have hi : st.i < I.length := (List.getElem?_eq_some.mp hidim).1
  have hne : I.drop st.i ≠ [] := by
    intro hc
    have := congrArg List.length hc
    simp only [List.length_drop, List.length_nil] at this
    omega
  have hn := compute_end_dim_lt (I.drop st.i) rdim hne
  rw [List.length_drop] at hn
  have hsi : st.i < S.length := by omega
  have hsn : st.i + compute_end_dim (I.drop st.i) rdim < S.length := by omega
  obtain ⟨s, hs⟩ : ∃ s, S[st.i]? = some s := ⟨_, List.getElem?_eq_getElem hsi⟩
  obtain ⟨sN, hsN⟩ : ∃ sN, S[st.i + compute_end_dim (I.drop st.i) rdim]? = some sN :=
    ⟨_, List.getElem?_eq_getElem hsn⟩
  refine ⟨hsi, by omega, hsn, ?_, ?_⟩
  · intro herr
    unfold reshape_step at herr
    simp only [hidim, hrdim] at herr
    by_cases heq : rdim = idim
    · simp [heq, hs] at herr
    · by_cases hgt : rdim > idim
      · simp [heq, hgt, hsN] at herr
      · refine ⟨by omega, ?_⟩
        by_contra hle
        simp only [heq, hgt, if_false, hle, hs] at herr
        split at herr
        · rename_i e he
          simp only [Except.error.injEq] at herr
          subst herr
          exact absurd he (unsqueeze_strides_not_out_of_range _ _ _)
        · cases herr
  · intro hge
    unfold reshape_step
    simp only [hidim, hrdim]
    by_cases heq : rdim = idim
    · refine ⟨⟨st.i + 1, st.r + 1, st.rstrides ++ [s]⟩, ?_⟩
      simp [heq, hs]
    · have hgt : rdim > idim := by omega
      refine ⟨⟨st.i + compute_end_dim (I.drop st.i) rdim + 1, st.r + 1,
        st.rstrides ++ [sN]⟩, ?_⟩
      simp [heq, hgt, hsN]

theorem reshape_step_stride_reads_witness :
    ([24, 8, 2] : List Nat).length = ([2, 3, 4] : List Nat).length ∧
      (0 : Nat) + compute_end_dim (([2, 3, 4] : List Nat).drop 0) 24
        < ([24, 8, 2] : List Nat).length :=
  ⟨by decide,
    (reshape_step_stride_reads [2, 3, 4] [24, 8, 2] [24] ⟨0, 0, []⟩ 2 24 (by decide) (by decide)
      (by decide)).2.2.1⟩

/-! ## What the squeeze branch does -/

/-- When the sizes of the range multiply to `dim` exactly at position `n` and
stay below `dim` before, the `std::find_if` of `compute_end_dim` stops at
position `n` with the running product `dim`. -/
theorem find_end_of_run (dim : Nat) (l : List Nat) :
    ∀ (x n : Nat), n < l.length →
      (∀ j, j < n → x * (l.take (j + 1)).prod < dim) →
      x * (l.take (n + 1)).prod = dim → dim < size_mod →
      find_end dim l x = (n, dim) := by
  induction l with
  | nil => intro x n hn; simp at hn
  | cons d ds ih =>
    intro x n hn hmin hrun hdim
    cases n with
    | zero =>
      have hxd : x * d = dim := by simpa using hrun
      have hmod : x * d % size_mod = x * d := Nat.mod_eq_of_lt (by omega)
      have hge : x * d ≥ dim := by omega
      simp only [find_end]
      rw [hmod, if_pos hge, hxd]
    | succ m =>
      have h0 : x * d < dim := by
        have := hmin 0 (Nat.succ_pos m)
        simpa using this
      have hmod : x * d % size_mod = x * d := Nat.mod_eq_of_lt (by omega)
      have hnge : ¬ x * d ≥ dim := by omega
      have hrec := ih (x * d) m (by simpa using hn)
        (by
          intro j hj
          have := hmin (j + 1) (by omega)
          rw [List.take_succ_cons, List.prod_cons, ← Nat.mul_assoc] at this
          exact this)
        (by
          rw [List.take_succ_cons, List.prod_cons, ← Nat.mul_assoc] at hrun
          exact hrun)
        hdim
      simp only [find_end, hmod, hnge, if_false, hrec]

theorem compute_end_dim_of_run (l : List Nat) (dim n : Nat) (hn : n < l.length)
    (hmin : ∀ j, j < n → (l.take (j + 1)).prod < dim)
    (hrun : (l.take (n + 1)).prod = dim) (hdim : dim < size_mod) :
    compute_end_dim l dim = n := by
  have h := find_end_of_run dim l 1 n hn (by simpa using hmin) (by simpa using hrun) hdim
  simp [compute_end_dim, h]

/-- C15 (as amended): at an iteration of the loop of `reshape_dims` with
`R[r] > I[i]` where the run of input axes `I[i..k]`, `k = i + n`, has product
exactly `R[r]` and every shorter run has a smaller product, the stride
appended for output axis `r` is the stride of the last axis of the run,
`S[k]`; the input cursor moves to `k + 1` and the output cursor to `r + 1`. -/
theorem reshape_step_squeeze (I S R : List Nat) (st : loop_state) (idim rdim n s : Nat)
    (hidim : I[st.i]? = some idim) (hrdim : R[st.r]? = some rdim)
    (hgt : rdim > idim) (hR64 : rdim < 2 ^ 64) (hn : st.i + n < I.length)
    (hrun : ((I.drop st.i).take (n + 1)).prod = rdim)
    (hmin : ∀ j, j < n → ((I.drop st.i).take (j + 1)).prod < rdim)
    (hs : S[st.i + n]? = some s) :
    reshape_step I S R st = .ok ⟨st.i + n + 1, st.r + 1, st.rstrides ++ [s]⟩ ∧
      (st.rstrides ++ [s])[st.rstrides.length]? = some s := by
  have hce : compute_end_dim (I.drop st.i) rdim = n :=
    compute_end_dim_of_run (I.drop st.i) rdim n (by rw [List.length_drop]; omega) hmin hrun
      (by unfold size_mod; exact hR64)
  have hne : ¬ rdim = idim := by omega
  refine ⟨?_, by simp⟩
  unfold reshape_step
  simp only [hidim, hrdim, hne, if_false, hgt, if_true, hce, hs]

theorem reshape_step_squeeze_witness :
    reshape_step [2, 3, 4] [24, 8, 2] [6, 4] ⟨0, 0, []⟩ = .ok ⟨0 + 1 + 1, 0 + 1, [] ++ [8]⟩ ∧
      ([24, 8, 2] : List Nat)[0 + 1]? = some 8 :=
  ⟨(reshape_step_squeeze [2, 3, 4] [24, 8, 2] [6, 4] ⟨0, 0, []⟩ 2 6 1 8 (by decide) (by decide)
      (by decide) (by decide) (by decide) (by decide)
      (by
        intro j hj
        have hj0 : j = 0 := by omega
        subst hj0
        decide)
      (by decide)).1,
    by decide⟩

/-! ## States reached by the loop -/

theorem reshape_loop_of_not_cond (I S R : List Nat) (fuel : Nat) (st : loop_state)
    (h : ¬ (st.i < I.length ∧ st.r < R.length)) : reshape_loop I S R fuel st = .ok st := by
  cases fuel with
  | zero => rfl
  | succ fuel => simp only [reshape_loop, h, if_false]

/-- Running `k + m` iterations is running `k` iterations and then `m` more. -/
theorem reshape_loop_add (I S R : List Nat) (m : Nat) :
    ∀ (k : Nat) (st0 : loop_state), reshape_loop I S R (k + m) st0 =
      match reshape_loop I S R k st0 with
      | .error e => .error e
      | .ok st => reshape_loop I S R m st := by
  intro k
  induction k with
  | zero => intro st0; simp [reshape_loop]
  | succ k ih =>
    intro st0
    have hk : k + 1 + m = (k + m) + 1 := by omega
    rw [hk]
    by_cases hcond : st0.i < I.length ∧ st0.r < R.length
    · simp only [reshape_loop, hcond, and_self, if_true]
      rcases hstep : reshape_step I S R st0 with e | st1
      · simp
      · simp only [ih st1]
    · simp only [reshape_loop, hcond, if_false]
      exact (reshape_loop_of_not_cond I S R m st0 hcond).symm

/-- A state returned after `k` iterations in which the loop condition still
holds was reached by `k` full iterations, each of which advanced `i`. -/
theorem reshape_loop_progress (I S R : List Nat) :
    ∀ (k : Nat) (st0 st : loop_state), reshape_loop I S R k st0 = .ok st →
      (st.i < I.length ∧ st.r < R.length) → st0.i + k ≤ st.i := by
  intro k
  induction k with
  | zero =>
    intro st0 st h _
    simp only [reshape_loop, Except.ok.injEq] at h
    subst h
    omega
  | succ k ih =>
    intro st0 st h hcond
    by_cases hc0 : st0.i < I.length ∧ st0.r < R.length
    · simp only [reshape_loop, hc0, and_self, if_true] at h
      rcases hstep : reshape_step I S R st0 with e | st1
      · simp [hstep] at h
      · simp only [hstep] at h
        have h1 := ih st1 st h hcond
        have h2 := reshape_step_advances I S R st0 st1 hstep
        omega
    · simp only [reshape_loop, hc0, if_false, Except.ok.injEq] at h
      subst h
      exact absurd hcond hc0

/-- C12 (as amended): `reshape_dims` has no failure return. When the loop of a
non-standard input (one stride per size) reaches cursors `i`, `r` with
`R[r] > I[i]` and the run of input axes from `i` whose product is exactly
`R[r]` ends on the last input axis (every shorter run has a smaller product),
the iteration reads the stride of the last input axis, in bounds, gives it to
output axis `r`, the loop ends, and `reshape_dims` returns a present shape
with the sizes `R`. -/
theorem reshape_dims_full_consumption (t : type_t) (I S R : List Nat) (k : Nat)
    (st : loop_state) (idim rdim s : Nat)
    (hns : (shape.fixed t I S).standard = false) (hlen : S.length = I.length)
    (hreach : reshape_loop I S R k ⟨0, 0, []⟩ = .ok st)
    (hidim : I[st.i]? = some idim) (hrdim : R[st.r]? = some rdim)
    (hgt : rdim > idim) (hR64 : rdim < 2 ^ 64)
    (hrun : (I.drop st.i).prod = rdim)
    (hmin : ∀ j, j + 1 < (I.drop st.i).length → ((I.drop st.i).take (j + 1)).prod < rdim)
    (hlast : S.getLast? = some s) :
    reshape_step I S R st = .ok ⟨I.length, st.r + 1, st.rstrides ++ [s]⟩ ∧
      reshape_dims (shape.fixed t I S) R
        = .ok (some (shape.fixed t R (trailing_strides R (st.rstrides ++ [s])))) := by
  have hi : st.i < I.length := (List.getElem?_eq_some.mp hidim).1
  have hr : st.r < R.length := (List.getElem?_eq_some.mp hrdim).1
  have hdl : (I.drop st.i).length = I.length - st.i := List.length_drop _ _
  obtain ⟨n, hn⟩ : ∃ n, I.length = st.i + n + 1 := ⟨I.length - st.i - 1, by omega⟩
  have htake : (I.drop st.i).take (n + 1) = I.drop st.i :=
    List.take_of_length_le (by rw [hdl]; omega)
  have hsN : S[st.i + n]? = some s := by
    rw [List.getLast?_eq_getElem?] at hlast
    have : S.length - 1 = st.i + n := by omega
    rw [this] at hlast
    exact hlast
  have hce : compute_end_dim (I.drop st.i) rdim = n :=
    compute_end_dim_of_run (I.drop st.i) rdim n (by rw [hdl]; omega)
      (fun j hj => hmin j (by rw [hdl]; omega)) (by rw [htake]; exact hrun)
      (by unfold size_mod; exact hR64)
  have hne : ¬ rdim = idim := by omega
  have hstep : reshape_step I S R st = .ok ⟨I.length, st.r + 1, st.rstrides ++ [s]⟩ := by
    unfold reshape_step
    simp only [hidim, hrdim, hne, if_false, hgt, if_true, hce, hsN, hn]
  refine ⟨hstep, ?_⟩
  have hk := reshape_loop_progress I S R k ⟨0, 0, []⟩ st hreach ⟨hi, hr⟩
  simp only [Nat.zero_add] at hk
  obtain ⟨m, hm⟩ : ∃ m, I.length = k + (m + 1) := ⟨I.length - k - 1, by omega⟩
  have hfull : reshape_loop I S R I.length ⟨0, 0, []⟩
      = .ok ⟨I.length, st.r + 1, st.rstrides ++ [s]⟩ := by
    have hfuel : reshape_loop I S R I.length ⟨0, 0, []⟩
        = reshape_loop I S R (k + (m + 1)) ⟨0, 0, []⟩ := by rw [← hm]
    rw [hfuel, reshape_loop_add, hreach]
    simp only [reshape_loop, hi, hr, and_self, if_true, hstep]
    apply reshape_loop_of_not_cond
    simp
  unfold reshape_dims
  simp only [hns, Bool.false_eq_true, if_false, shape.lens, shape.strides, shape.type, hfull]

theorem reshape_dims_full_consumption_witness :
    reshape_loop [2, 3] [6, 2] [6] 0 ⟨0, 0, []⟩ = .ok ⟨0, 0, []⟩ ∧
      (([2, 3] : List Nat).drop 0).prod = 6 ∧
      reshape_dims (shape.fixed .float_type [2, 3] [6, 2]) [6]
        = .ok (some (shape.fixed .float_type [6] (trailing_strides [6] ([] ++ [2])))) :=
  ⟨by decide, by decide,
    (reshape_dims_full_consumption .float_type [2, 3] [6, 2] [6] 0 ⟨0, 0, []⟩ 2 6 2
      (by decide) (by decide) (by decide) (by decide) (by decide) (by decide) (by decide)
      (by decide)
      (by
        intro j hj
        have hj0 : j = 0 := by
          simp only [List.drop_zero, List.length_cons, List.length_nil] at hj
          omega
        subst hj0
        decide)
      (by decide)).2⟩

/-! ## Identity and trailing ones -/

/-- On target sizes that start with the input sizes, the loop of `reshape_dims`
takes equal steps only and carries the input strides over. -/
theorem reshape_loop_equal_prefix (I S X : List Nat) (hlen : S.length = I.length) :
    ∀ (fuel j : Nat), j ≤ I.length → I.length - j ≤ fuel →
      reshape_loop I S (I ++ X) fuel ⟨j, j, S.take j⟩ = .ok ⟨I.length, I.length, S⟩ := by
  intro fuel
  induction fuel with
  | zero =>
    intro j hj hfuel
    have hjn : j = I.length := by omega
    subst hjn
    simp only [reshape_loop]
    rw [← hlen, List.take_length]
  | succ fuel ih =>
    intro j hj hfuel
    by_cases hlt : j < I.length
    · have hcond : j < I.length ∧ j < (I ++ X).length := by
        refine ⟨hlt, ?_⟩
        rw [List.length_append]
        omega
      obtain ⟨a, ha⟩ : ∃ a, I[j]? = some a := ⟨_, List.getElem?_eq_getElem hlt⟩
      have hR : (I ++ X)[j]? = some a := by
        rw [List.getElem?_append_left hlt]
        exact ha
      obtain ⟨s, hs⟩ : ∃ s, S[j]? = some s := ⟨_, List.getElem?_eq_getElem (by omega)⟩
      have hstep : reshape_step I S (I ++ X) ⟨j, j, S.take j⟩
          = .ok ⟨j + 1, j + 1, S.take (j + 1)⟩ := by
        unfold reshape_step
        simp only [ha, hR, if_true, hs]
        rw [take_succ_of_getElem? S j s hs]
      simp only [reshape_loop, hcond, and_self, if_true, hstep]
      exact ih (j + 1) hlt (by omega)
    · have hjn : j = I.length := by omega
      subst hjn
      have hnc : ¬ (I.length < I.length ∧ I.length < (I ++ X).length) := by omega
      simp only [reshape_loop, hnc, if_false]
      rw [← hlen, List.take_length]

/-- C17: for a non-standard input with sizes `I` of rank at least `1` and
strides `S` (one per size, the last being `last`), and every `k`,
`reshape_dims` on the target `I ++ [1, .., 1]` (`k` ones) returns the sizes
`I ++ [1, .., 1]` with the strides `S ++ [last, .., last]` (`k` times); for
`k = 0` the shape returned is the input shape. -/
theorem reshape_dims_trailing_ones (t : type_t) (I S : List Nat) (k last : Nat)
    (hns : (shape.fixed t I S).standard = false) (hlen : S.length = I.length)
    (hrank : 1 ≤ I.length) (hlast : S.getLast? = some last) :
    reshape_dims (shape.fixed t I S) (I ++ List.replicate k 1)
        = .ok (some (shape.fixed t (I ++ List.replicate k 1) (S ++ List.replicate k last))) ∧
      (k = 0 → reshape_dims (shape.fixed t I S) (I ++ List.replicate k 1)
        = .ok (some (shape.fixed t I S))) := by
  have hloop := reshape_loop_equal_prefix I S (List.replicate k 1) hlen I.length 0
    (Nat.zero_le _) (by omega)
  have hmain : reshape_dims (shape.fixed t I S) (I ++ List.replicate k 1)
      = .ok (some (shape.fixed t (I ++ List.replicate k 1) (S ++ List.replicate k last))) := by
    unfold reshape_dims
    simp only [hns, Bool.false_eq_true, if_false, shape.lens, shape.strides, shape.type]
    simp only [List.take_zero] at hloop
    rw [hloop]
    simp only [trailing_strides, List.length_append, List.length_replicate, hlen]
    have hSne : S ≠ [] := by
      intro hc
      rw [hc] at hlen
      simp at hlen
      omega
    by_cases hk : k = 0
    · subst hk
      simp
    · have hlt : I.length < I.length + k := by omega
      simp only [hlt, ne_eq, hSne, not_false_eq_true, and_self, if_true, hlast,
        Option.getD_some]
      have : I.length + k - I.length = k := by omega
      rw [this]
  refine ⟨hmain, ?_⟩
  intro hk
  rw [hmain, hk]
  simp

theorem reshape_dims_trailing_ones_witness :
    (shape.fixed .float_type [2, 3] [1, 2]).standard = false ∧
      reshape_dims (shape.fixed .float_type [2, 3] [1, 2]) ([2, 3] ++ List.replicate 2 1)
        = .ok (some (shape.fixed .float_type [2, 3, 1, 1] [1, 2, 2, 2])) :=
  ⟨by decide,
    (reshape_dims_trailing_ones .float_type [2, 3] [1, 2] 2 2 (by decide) (by decide)
      (by decide) (by decide)).1⟩

/-! ## Splitting one strided axis -/

/-- C18 (counterexample): the rank-1 input of size `N = 2` and stride
`s = 2^63` is not standard; the target `[1, 2]` has entries at least `1` and
product `2`. The product `istrides[i] * idim = 2^64` wraps to `0` in
`std::size_t`, so `reshape_dims` returns the strides `[0, 0]`, not
`[s * 2, s]`, and the output visits the offsets `0, 0` where the input visits
`0, 2^63`. -/
theorem reshape_dims_split_axis_overflow :
    (shape.fixed .float_type [2] [9223372036854775808]).standard = false ∧
      ([1, 2] : List Nat).prod = 2 ∧
      reshape_dims (shape.fixed .float_type [2] [9223372036854775808]) [1, 2]
        = .ok (some (shape.fixed .float_type [1, 2] [0, 0])) ∧
      offsets [1, 2] [0, 0] = [0, 0] ∧
      offsets [2] [9223372036854775808] = [0, 9223372036854775808] ∧
      ¬ (9223372036854775808 * 2 < 2 ^ 64) := by
  refine ⟨by decide, by decide, by decide, by decide, by decide, by decide⟩

/-- With sizes at least `1` whose product is `dim`, the running product of
`compute_end_dim` ends on `dim` exactly. -/
theorem find_end_total_exact (dim : Nat) (l : List Nat) :
    ∀ (x : Nat), (∀ e ∈ l, 1 ≤ e) → x * l.prod = dim → dim < size_mod → 1 ≤ x →
      (find_end dim l x).2 = dim := by
  induction l with
  | nil => intro x _ h _ _; simpa [find_end] using h
  | cons d ds ih =>
    intro x hpos hprod hdim hx
    have hd : 1 ≤ d := hpos d (List.mem_cons_self _ _)
    have hds : ∀ e ∈ ds, 1 ≤ e := fun e he => hpos e (List.mem_cons_of_mem _ he)
    have hP : 1 ≤ ds.prod := prod_pos_of_forall_pos ds hds
    rw [List.prod_cons, ← Nat.mul_assoc] at hprod
    have hle : x * d ≤ dim := by
      rw [← hprod]
      exact Nat.le_mul_of_pos_right _ hP
    have hmod : x * d % size_mod = x * d := Nat.mod_eq_of_lt (by omega)
    simp only [find_end]
    rw [hmod]
    by_cases hge : x * d ≥ dim
    · rw [if_pos hge]
      show x * d = dim
      omega
    · rw [if_neg hge]
      exact ih (x * d) hds hprod hdim (Nat.mul_pos hx hd)

theorem compute_end_dim_total (l : List Nat) (dim : Nat) (hpos : ∀ e ∈ l, 1 ≤ e)
    (hprod : l.prod = dim) (hdim : dim < size_mod) (h1 : 1 < dim) :
    compute_end_dim l dim < l.length ∧ (l.take (compute_end_dim l dim + 1)).prod = dim := by
  have h2 := find_end_total_exact dim l 1 hpos (by simpa using hprod) hdim (le_refl 1)
  have h3 := find_end_exact dim l 1 hpos (by rw [Nat.one_mul, hprod]; exact hdim) (le_refl 1)
    h1 h2
  have hce : compute_end_dim l dim = (find_end dim l 1).1 := by
    simp [compute_end_dim, h2]
  rw [hce]
  simpa using h3

theorem chain_strides_append (A : List Nat) (B : List Nat) (s : Nat) :
    chain_strides (A ++ B) s = chain_strides A (B.prod * s) ++ chain_strides B s := by
  induction A with
  | nil => simp [chain_strides]
  | cons a A ih =>
    have e1 : chain_strides (a :: A ++ B) s
        = ((A ++ B).prod * s) :: chain_strides (A ++ B) s := rfl
    have e2 : chain_strides (a :: A) (B.prod * s)
        = (A.prod * (B.prod * s)) :: chain_strides A (B.prod * s) := rfl
    rw [e1, e2, ih, List.prod_append, Nat.mul_assoc]
    rfl

theorem chain_strides_ones (l : List Nat) (s : Nat) (h : ∀ x ∈ l, x = 1) :
    chain_strides l s = List.replicate l.length s := by
  induction l with
  | nil => rfl
  | cons d ds ih =>
    have hds : ∀ x ∈ ds, x = 1 := fun x hx => h x (List.mem_cons_of_mem _ hx)
    have hP : ds.prod = 1 := by
      apply List.prod_eq_one
      exact hds
    simp [chain_strides, ih hds, hP, List.replicate_succ]

theorem chain_strides_getLast? (l : List Nat) (s : Nat) (hne : l ≠ []) :
    (chain_strides l s).getLast? = some s := by
  induction l with
  | nil => exact absurd rfl hne
  | cons d ds ih =>
    cases ds with
    | nil => simp [chain_strides]
    | cons e es =>
      have := ih (by simp)
      simp only [chain_strides] at this ⊢
      rw [List.getLast?_cons_cons]
      exact this

theorem chain_strides_getElem? (l : List Nat) (s : Nat) :
    ∀ (k : Nat), k < l.length → (chain_strides l s)[k]? = some (s * (l.drop (k + 1)).prod) := by
  induction l with
  | nil => intro k hk; simp at hk
  | cons d ds ih =>
    intro k hk
    cases k with
    | zero => simp [chain_strides, Nat.mul_comm]
    | succ m =>
      simp only [chain_strides, List.getElem?_cons_succ, List.drop_succ_cons]
      exact ih m (by simpa using hk)

/-- The "trailing 1s" block completes the strides of a run to the strides of
the whole target when the sizes after the run are all `1`. -/
theorem trailing_strides_chain (R : List Nat) (m s : Nat) (hm : m ≤ R.length) (hm1 : 1 ≤ m)
    (hones : ∀ x ∈ R.drop m, x = 1) :
    trailing_strides R (chain_strides (R.take m) s) = chain_strides R s := by
  have hA : (R.take m).length = m := by rw [List.length_take]; omega
  have hAne : R.take m ≠ [] := by
    intro hc
    rw [hc] at hA
    simp at hA
    omega
  have hBprod : (R.drop m).prod = 1 := List.prod_eq_one hones
  have hsplit : chain_strides R s
      = chain_strides (R.take m) s ++ List.replicate (R.length - m) s := by
    conv_lhs => rw [← List.take_append_drop m R]
    rw [chain_strides_append, hBprod, Nat.one_mul, chain_strides_ones _ _ hones,
      List.length_drop]
  unfold trailing_strides
  rw [chain_strides_length, hA]
  by_cases hlt : m < R.length
  · have hne : chain_strides (R.take m) s ≠ [] := by
      intro hc
      have := congrArg List.length hc
      rw [chain_strides_length, hA] at this
      simp at this
      omega
    rw [if_pos ⟨hlt, hne⟩, chain_strides_getLast? _ _ hAne, hsplit]
    rfl
  · have hcond : ¬ (m < R.length ∧ chain_strides (R.take m) s ≠ []) := fun hc => hlt hc.1
    rw [if_neg hcond, hsplit]
    have : R.length - m = 0 := by omega
    rw [this]
    simp

/-- An unsqueeze iteration whose scan, started at `rdims.begin() + i`, finds a
run of product `idim`: the strides appended are those of the run, ending on
`istrides[i]`. -/
theorem reshape_step_unsqueeze (I S R : List Nat) (st : loop_state) (idim rdim s : Nat)
    (hidim : I[st.i]? = some idim) (hrdim : R[st.r]? = some rdim) (hlt : rdim < idim)
    (hiR : st.i < R.length) (hs : S[st.i]? = some s)
    (hrun : ((R.drop st.i).take (compute_end_dim (R.drop st.i) idim + 1)).prod = idim)
    (hpos : ∀ x ∈ R.drop st.i, 1 ≤ x) (hov : s * idim < size_mod) :
    reshape_step I S R st = .ok ⟨st.i + 1, st.r + compute_end_dim (R.drop st.i) idim + 1,
      st.rstrides ++
        chain_strides ((R.drop st.i).take (compute_end_dim (R.drop st.i) idim + 1)) s⟩ := by
  have hne : ¬ rdim = idim := by omega
  have hngt : ¬ rdim > idim := by omega
  have hnle : ¬ R.length ≤ st.i := by omega
  have hmod : (s * idim) % size_mod = s * idim := Nat.mod_eq_of_lt hov
  have hposRun : ∀ x ∈ (R.drop st.i).take (compute_end_dim (R.drop st.i) idim + 1), 1 ≤ x :=
    fun x hx => hpos x (List.mem_of_mem_take hx)
  have hstride : s * idim
      = ((R.drop st.i).take (compute_end_dim (R.drop st.i) idim + 1)).prod * s := by
    rw [hrun, Nat.mul_comm]
  unfold reshape_step
  simp only [hidim, hrdim, hne, if_false, hngt, hnle, hs, hmod]
  rw [hstride, unsqueeze_strides_chain _ s st.rstrides hposRun]

/-- C18 (as amended): for a rank-1 non-standard input of size `N` (a
`std::size_t`) and stride `s` with `s * N` below `2^64`, and every non-empty
target `R` with entries at least `1` and product `N`, `reshape_dims` returns
the sizes `R` with the strides `strides[k] = s * product(R[k+1..])` for every
`k`, and the output visits the offsets of the input, `0, s, .., (N - 1) * s`. -/
theorem reshape_dims_split_axis (t : type_t) (N s : Nat) (R : List Nat)
    (hns : (shape.fixed t [N] [s]).standard = false) (hne : R ≠ [])
    (hpos : ∀ e ∈ R, 1 ≤ e) (hprod : R.prod = N) (hN : N < 2 ^ 64)
    (hov : s * N < 2 ^ 64) :
    reshape_dims (shape.fixed t [N] [s]) R = .ok (some (shape.fixed t R (chain_strides R s))) ∧
      (chain_strides R s).length = R.length ∧
      (∀ k, k < R.length → (chain_strides R s)[k]? = some (s * (R.drop (k + 1)).prod)) ∧
      offsets R (chain_strides R s) = offsets [N] [s] ∧
      offsets [N] [s] = (List.range N).map (fun k => k * s) := by
  have hNpos : 1 ≤ N := by rw [← hprod]; exact prod_pos_of_forall_pos R hpos
  have hNM : N < size_mod := by unfold size_mod; exact hN
  have hovM : s * N < size_mod := by unfold size_mod; exact hov
  have hoff : offsets R (chain_strides R s) = offsets [N] [s] := by
    rw [mixed_radix, offsets_single, hprod]
  refine ⟨?_, chain_strides_length R s, chain_strides_getElem? R s, hoff, ?_⟩
  · obtain ⟨r0, rest, hR⟩ : ∃ r0 rest, R = r0 :: rest := by
      cases R with
      | nil => exact absurd rfl hne
      | cons r0 rest => exact ⟨r0, rest, rfl⟩
    have hRlen : 0 < R.length := by rw [hR]; simp
    have hr0 : R[0]? = some r0 := by rw [hR]; simp
    have hr0pos : 1 ≤ r0 := hpos r0 (by rw [hR]; exact List.mem_cons_self _ _)
    have hrestpos : ∀ e ∈ rest, 1 ≤ e :=
      fun e he => hpos e (by rw [hR]; exact List.mem_cons_of_mem _ he)
    have hrestP : 1 ≤ rest.prod := prod_pos_of_forall_pos rest hrestpos
    have hr0le : r0 ≤ N := by
      rw [← hprod, hR, List.prod_cons]
      exact Nat.le_mul_of_pos_right _ hrestP
    have hcond : (0 : Nat) < ([N] : List Nat).length ∧ 0 < R.length := ⟨by simp, hRlen⟩
    -- the single iteration of the loop
    have hkey : ∃ m, 1 ≤ m ∧ m ≤ R.length ∧ (∀ x ∈ R.drop m, x = 1) ∧
        reshape_step [N] [s] R ⟨0, 0, []⟩ = .ok ⟨1, m, chain_strides (R.take m) s⟩ := by
      by_cases heq : r0 = N
      · refine ⟨1, le_refl 1, hRlen, ?_, ?_⟩
        · have hrest1 : rest.prod = 1 := by
            have h := hprod
            rw [hR, List.prod_cons, heq] at h
            have h2 : N * rest.prod = N * 1 := by rw [h, Nat.mul_one]
            exact Nat.eq_of_mul_eq_mul_left hNpos h2
          rw [hR]
          exact ones_of_prod_eq_one rest hrestpos hrest1
        · unfold reshape_step
          have htake : chain_strides (R.take 1) s = [s] := by
            rw [hR]
            simp [chain_strides]
          simp [hr0, heq, htake]
      · have hlt : r0 < N := by omega
        obtain ⟨hn, hrun⟩ := compute_end_dim_total R N hpos hprod hNM (by omega)
        have hstep := reshape_step_unsqueeze [N] [s] R ⟨0, 0, []⟩ N r0 s (by rfl) hr0 hlt
          hRlen (by rfl) (by simpa using hrun) (by simpa using hpos) hovM
        simp only [List.drop_zero, Nat.zero_add, List.nil_append] at hstep
        refine ⟨compute_end_dim R N + 1, by omega, by omega, ?_, hstep⟩
        have hsplit := List.prod_take_mul_prod_drop R (compute_end_dim R N + 1)
        rw [hrun, hprod] at hsplit
        have h2 : N * (R.drop (compute_end_dim R N + 1)).prod = N * 1 := by
          rw [hsplit, Nat.mul_one]
        exact ones_of_prod_eq_one _ (fun e he => hpos e (List.mem_of_mem_drop he))
          (Nat.eq_of_mul_eq_mul_left hNpos h2)
    obtain ⟨m, hm1, hmle, hones, hstep⟩ := hkey
    have hloop : reshape_loop [N] [s] R 1 ⟨0, 0, []⟩
        = .ok ⟨1, m, chain_strides (R.take m) s⟩ := by
      have hunf : reshape_loop [N] [s] R 1 ⟨0, 0, []⟩
          = if (0 : Nat) < ([N] : List Nat).length ∧ 0 < R.length then
              (match reshape_step [N] [s] R ⟨0, 0, []⟩ with
                | Except.error e => Except.error e
                | Except.ok st1 => reshape_loop [N] [s] R 0 st1)
            else Except.ok ⟨0, 0, []⟩ := rfl
      rw [hunf, if_pos hcond, hstep]
      rfl
    unfold reshape_dims
    simp only [hns, Bool.false_eq_true, if_false, shape.lens, shape.strides, shape.type,
      List.length_singleton, hloop]
    rw [trailing_strides_chain R m s hmle hm1 hones]
  · rw [offsets_single]
    rfl

theorem reshape_dims_split_axis_witness :
    (shape.fixed .float_type [6] [2]).standard = false ∧
      reshape_dims (shape.fixed .float_type [6] [2]) [1, 2, 3, 1]
        = .ok (some (shape.fixed .float_type [1, 2, 3, 1] [12, 6, 2, 2])) ∧
      offsets [1, 2, 3, 1] [12, 6, 2, 2] = [0, 2, 4, 6, 8, 10] ∧
      offsets [1, 2, 3, 1] (chain_strides [1, 2, 3, 1] 2) = offsets [6] [2] :=
  ⟨by decide, by decide, by decide,
    (reshape_dims_split_axis .float_type 6 2 [1, 2, 3, 1] (by decide) (by decide) (by decide)
      (by decide) (by decide) (by decide)).2.2.2.1⟩

/-! ## The materializer -/

theorem combine_length (xs ys : List Nat) : (combine xs ys).length = xs.length * ys.length := by
  induction xs with
  | nil => simp [combine]
  | cons a xs ih =>
    rw [combine_cons, List.length_append, ih, List.length_map, List.length_cons]
    ring

/-- A shape has one logical position per element. -/
theorem offsets_length (ds : List Nat) :
    ∀ (ss : List Nat), (offsets ds ss).length = ds.prod := by
  induction ds with
  | nil => intro ss; rfl
  | cons d ds ih =>
    intro ss
    simp [offsets, combine_length, axis_offsets, ih]

theorem calculate_strides_eq_chain (l : List Nat) : calculate_strides l = chain_strides l 1 := by
  induction l with
  | nil => rfl
  | cons d ds ih => simp [calculate_strides, chain_strides, ih]

/-- The logical positions of a standard shape are the offsets `0, 1, 2, ..`. -/
theorem offsets_standard (l : List Nat) :
    offsets l (calculate_strides l) = List.range l.prod := by
  rw [calculate_strides_eq_chain, mixed_radix]
  simp [axis_offsets]

/-- After `std::copy` onto distinct offsets, reading the offsets back yields
the values copied; the other cells are untouched. -/
theorem std_copy_read {α : Type} (vals : List (Option α)) :
    ∀ (offs : List Nat) (data : Nat → Option α), offs.Nodup → vals.length = offs.length →
      ∃ data1, std_copy vals offs data = .ok data1 ∧ offs.map data1 = vals ∧
        ∀ k, k ∉ offs → data1 k = data k := by
  induction vals with
  | nil =>
    intro offs data _ hlen
    have : offs = [] := List.length_eq_zero.mp (by simpa using hlen.symm)
    subst this
    exact ⟨data, rfl, rfl, fun _ _ => rfl⟩
  | cons v vs ih =>
    intro offs data hnd hlen
    cases offs with
    | nil => simp at hlen
    | cons o os =>
      rw [List.nodup_cons] at hnd
      obtain ⟨data1, hcopy, hread, hrest⟩ :=
        ih os (fun k => if k = o then v else data k) hnd.2 (by simpa using hlen)
      refine ⟨data1, ?_, ?_, ?_⟩
      · simp only [std_copy, hcopy]
      · have ho : data1 o = v := by
          rw [hrest o hnd.1]
          simp
        simp [ho, hread]
      · intro k hk
        rw [List.mem_cons, not_or] at hk
        rw [hrest k hk.2]
        simp [hk.1]

/-- C14: for a standard resolved output shape and an input buffer of the same
element type and the same element count (product of the sizes), `compute`
returns a buffer that carries the resolved output shape and whose elements,
read in the logical order of the output, are the elements of the input read
in the logical order of the input, position by position and as they are. -/
theorem compute_materializes {α : Type} (self : reshape) (dyn_out : dyn_output)
    (input : argument α) (rest : List (argument α))
    (hstd : dyn_out.computed_shape.standard = true)
    (htype : input.get_shape.type = dyn_out.computed_shape.type)
    (hcount : input.get_shape.lens.prod = dyn_out.computed_shape.lens.prod) :
    ∃ result, self.compute dyn_out (input :: rest) = .ok result ∧
      result.get_shape = dyn_out.computed_shape ∧
      result.elements_in_order = input.elements_in_order := by
  obtain ⟨out⟩ := dyn_out
  cases out with
  | dyn t dds => simp [shape.standard] at hstd
  | fixed t l st =>
    have hst : st = calculate_strides l := by
      simpa [shape.standard] using hstd
    subst hst
    simp only [shape.type] at htype
    simp only [shape.lens] at hcount
    have hlen : input.elements_in_order.length = (List.range l.prod).length := by
      simp only [argument.elements_in_order, List.length_map, offsets_length, List.length_range]
      exact hcount
    obtain ⟨data1, hcopy, hread, _⟩ :=
      std_copy_read input.elements_in_order (List.range l.prod) (fun _ => none)
        (List.nodup_range _) hlen
    refine ⟨⟨shape.fixed t l (calculate_strides l), data1⟩, ?_, rfl, ?_⟩
    · simp only [reshape.compute, List.getElem?_cons_zero, argument.allocate, shape.type,
        shape.lens, shape.strides, offsets_standard, hcopy, htype, ne_eq, not_true_eq_false,
        if_false]
    · simp only [argument.elements_in_order, shape.lens, shape.strides, offsets_standard]
      exact hread

theorem compute_materializes_witness :
    ∃ result : argument Nat,
      (reshape.mk [3, 2]).compute ⟨shape.from_lens .int32_type [3, 2]⟩
          [⟨shape.fixed .int32_type [2, 3] [1, 2], fun k => some (10 + k)⟩] = .ok result ∧
        result.get_shape = shape.from_lens .int32_type [3, 2] ∧
        result.elements_in_order
          = (⟨shape.fixed .int32_type [2, 3] [1, 2], fun k => some (10 + k)⟩ :
              argument Nat).elements_in_order :=
  compute_materializes (reshape.mk [3, 2]) ⟨shape.from_lens .int32_type [3, 2]⟩
    ⟨shape.fixed .int32_type [2, 3] [1, 2], fun k => some (10 + k)⟩ [] (by decide) (by decide)
    (by decide)

end migraphx
